import Mathlib

/-!
# server.js : signup / login over a flat JSON file

A shallow embedding of `server.js`.  The two request handlers, the two file
helpers, and the pieces of the JavaScript runtime they call (truthiness, `===`,
property access, `Array.prototype.find`, template literals,
`JSON.stringify(_, null, 2)`, `JSON.parse`, `fs.readFileSync`,
`fs.writeFileSync`) are Lean functions.

Conventions of the embedding
* A JavaScript string is a sequence of UTF-16 code units, paired or not.  The
  text of the file is what `Buffer.toString()` decodes, a sequence of Unicode
  characters; `JSON.stringify` is the well-formed one of ECMAScript 2019, whose
  output is such a text.
* A JavaScript number is an IEEE-754 double: a JSON literal is rounded to the
  nearest double, ties to even, and a double is printed with the fewest digits
  that read back as it.
* Requests are handled one at a time: a handler maps the state of the file to a
  reply and the next state of the file.  Console output is not recorded, but a
  template literal that throws while the line is built ends the handler.
* A write that fails leaves the file as it was when the file cannot be opened,
  and otherwise cut short, since Node truncates the file before it writes.
* The scanner and the parser of `JSON.parse` recurse on a budget; the budgets
  are shown to be sufficient (`lex_fuel`, `parseValue_fuel`), so the result
  `none` is always a syntax error.  The limits of the runtime on the length of a
  string and on the depth of the stack are outside the embedding.
-/

namespace Server

/-! ## JavaScript values -/

/-- A UTF-16 code unit. -/
abbrev CodeUnit := Fin 65536

/-- A JavaScript string. -/
abbrev JsString := List CodeUnit

/-- The code units of a character: itself, or a surrogate pair. -/
def utf16Char (c : Char) : List CodeUnit :=
  if c.toNat < 65536 then [Fin.ofNat c.toNat]
  else
    [Fin.ofNat (55296 + (c.toNat - 65536) / 1024), Fin.ofNat (56320 + (c.toNat - 65536) % 1024)]

/-- The JavaScript string of a string literal. -/
def utf16 (s : String) : JsString :=
  s.data.flatMap utf16Char

/-- A double other than NaN: the value `mant * 2 ^ exp` with its sign, or an
infinity.  The doubles that a JSON text denotes have `mant < 2 ^ 53`, and
`2 ^ 52 ≤ mant` unless `exp = -1074`. -/
inductive JsNumber where
  | finite (negative : Bool) (mant : Nat) (exp : Int)
  | infinite (negative : Bool)
deriving DecidableEq, Repr

/-- The quotient `n / d` rounded to the nearest integer, ties to even. -/
def roundHalfEven (n d : Nat) : Nat :=
  if 2 * (n % d) < d then n / d
  else if d < 2 * (n % d) then n / d + 1
  else if (n / d) % 2 = 0 then n / d
  else n / d + 1

/-- Numerator and denominator of `(n / d) / 2 ^ k`. -/
def scaled (n d : Nat) (k : Int) : Nat × Nat :=
  if 0 ≤ k then (n, d * 2 ^ k.toNat) else (n * 2 ^ (-k).toNat, d)

/-- The double nearest to `n / d`, ties to even: the exponent `k` is chosen so
that the quotient by `2 ^ k` has 53 bits, or is `-1074` for a subnormal; beyond
the largest double the result is an infinity. -/
def JsNumber.ofRatio (negative : Bool) (n d : Nat) : JsNumber :=
  if n = 0 then .finite negative 0 (-1074)
  else
    let k0 : Int := max (-1074) ((Nat.log2 n : Int) - (Nat.log2 d : Int) - 53)
    let k : Int := if (scaled n d k0).1 / (scaled n d k0).2 < 2 ^ 53 then k0 else k0 + 1
    let m := roundHalfEven (scaled n d k).1 (scaled n d k).2
    let k1 : Int := if m = 2 ^ 53 then k + 1 else k
    let m1 := if m = 2 ^ 53 then 2 ^ 52 else m
    if 971 < k1 then .infinite negative else .finite negative m1 k1

/-- The double that the decimal `m * 10 ^ e` denotes. -/
def JsNumber.ofDecimal (negative : Bool) (m : Nat) (e : Int) : JsNumber :=
  if 0 ≤ e then .ofRatio negative (m * 10 ^ e.toNat) 1
  else .ofRatio negative m (10 ^ (-e).toNat)

/-- The operator `===` on two numbers: equal values, the two zeros included. -/
def JsNumber.eq : JsNumber → JsNumber → Bool
  | .finite s m e, .finite t n f =>
    (decide (m = 0) && decide (n = 0)) ||
      (s == t && decide (m * 2 ^ (e - min e f).toNat = n * 2 ^ (f - min e f).toNat))
  | .infinite s, .infinite t => s == t
  | _, _ => false

/-- ToBoolean of a number: false on the two zeros. -/
def JsNumber.truthy : JsNumber → Bool
  | .finite _ m _ => decide (m ≠ 0)
  | .infinite _ => true

/-- The values `JSON.parse` and body-parser can deliver, and `undefined`. -/
inductive JsVal where
  | undefined
  | null
  | bool (b : Bool)
  | num (n : JsNumber)
  | str (s : JsString)
  | arr (items : List JsVal)
  | obj (props : List (JsString × JsVal))
deriving Repr

/-- The exceptions of the runtime that the program meets: a TypeError, the
SyntaxError of `JSON.parse`, and a file-system error with its `code`. -/
inductive JsError where
  | typeError
  | syntaxError
  | fsError (code : String)
deriving DecidableEq, Repr

/-- The property `error.code` of a caught exception. -/
def JsError.code : JsError → Option String
  | .fsError code => some code
  | _ => none

/-- ToBoolean: `!v` is `!(truthy v)`. -/
def truthy : JsVal → Bool
  | .undefined => false
  | .null => false
  | .bool b => b
  | .num n => n.truthy
  | .str s => decide (s ≠ [])
  | .arr _ => true
  | .obj _ => true

/-- The operator `===` between a value read from the file and a value of the
request body, or between two values of distinct places of one parsed document:
primitives compare by value, while two arrays or two objects are distinct
references and never equal. -/
def strictEq : JsVal → JsVal → Bool
  | .undefined, .undefined => true
  | .null, .null => true
  | .bool a, .bool b => a == b
  | .num a, .num b => a.eq b
  | .str a, .str b => decide (a = b)
  | _, _ => false

/-- Lookup of an own property in a property list. -/
def lookup (key : JsString) : List (JsString × JsVal) → JsVal
  | [] => .undefined
  | (k, v) :: rest => if k = key then v else lookup key rest

/-- Property access `v.key` for a key that no built-in prototype defines (the
handlers read `email` and `password`): a TypeError on `undefined` and `null`,
the own property of an object, `undefined` on every other value. -/
def getField (v : JsVal) (key : JsString) : Except JsError JsVal :=
  match v with
  | .undefined => .error .typeError
  | .null => .error .typeError
  | .obj props => .ok (lookup key props)
  | _ => .ok .undefined

/-- The loop of `Array.prototype.find`: the first element the callback accepts,
`undefined` when there is none; an exception of the callback ends the scan. -/
def findIn (pred : JsVal → Except JsError Bool) : List JsVal → Except JsError JsVal
  | [] => .ok .undefined
  | x :: rest =>
    match pred x with
    | .error e => .error e
    | .ok true => .ok x
    | .ok false => findIn pred rest

/-- The call `users.find(callback)`: only an array has the method, on any other
parsed value the call is a TypeError. -/
def JsVal.find (users : JsVal) (pred : JsVal → Except JsError Bool) : Except JsError JsVal :=
  match users with
  | .arr items => findIn pred items
  | _ => .error .typeError

/-- The call `users.push(x)`. -/
def JsVal.push (users : JsVal) (x : JsVal) : Except JsError JsVal :=
  match users with
  | .arr items => .ok (.arr (items ++ [x]))
  | _ => .error .typeError

mutual
/-- Whether ToString, which a template literal applies to the value it embeds,
throws.  An object with an own property `toString` shadows the method of the
prototype by a value that cannot be called, and its `valueOf` gives no
primitive: a TypeError.  An array joins the strings of its elements, so it
throws when one of them does.  Every other value has a string. -/
def toStringThrows : JsVal → Bool
  | .obj props => props.any fun p => decide (p.1 = utf16 "toString")
  | .arr items => anyToStringThrows items
  | _ => false
/-- Whether ToString throws on an element of the list. -/
def anyToStringThrows : List JsVal → Bool
  | [] => false
  | x :: rest => toStringThrows x || anyToStringThrows rest
end

/-- The evaluation of a template literal that embeds `v`: the string is not
recorded, the exception is. -/
def template (v : JsVal) : Except JsError Unit :=
  if toStringThrows v then .error .typeError else .ok ()

/-! ## JSON.stringify(value, null, 2) -/

/-- Lower-case hexadecimal digit of a number below sixteen. -/
def hexDigit (n : Nat) : Char :=
  if n < 10 then Char.ofNat (48 + n) else Char.ofNat (87 + n)

/-- UnicodeEscape of a code unit. -/
def unicodeEscape (n : Nat) : List Char :=
  ['\\', 'u', hexDigit (n / 4096 % 16), hexDigit (n / 256 % 16), hexDigit (n / 16 % 16),
    hexDigit (n % 16)]

/-- The scalar value of a surrogate pair. -/
def pairValue (hi lo : Nat) : Nat :=
  65536 + (hi - 55296) * 1024 + (lo - 56320)

/-- A code point that is one code unit, inside a quoted JSON string
(QuoteJSONString): the short escapes, a `\u` escape for the other control
characters and for a surrogate without its partner, the character itself
otherwise. -/
def quoteUnit (u : CodeUnit) : List Char :=
  if u.val = 8 then ['\\', 'b']
  else if u.val = 9 then ['\\', 't']
  else if u.val = 10 then ['\\', 'n']
  else if u.val = 12 then ['\\', 'f']
  else if u.val = 13 then ['\\', 'r']
  else if u.val = 34 then ['\\', '"']
  else if u.val = 92 then ['\\', '\\']
  else if u.val < 32 ∨ (55296 ≤ u.val ∧ u.val ≤ 57343) then unicodeEscape u.val
  else [Char.ofNat u.val]

/-- The code points of a string, escaped, without the surrounding quotes: a
high surrogate followed by a low one is one character, printed as it is. -/
def quoteUnits : JsString → List Char
  | [] => []
  | [u] => quoteUnit u
  | hi :: lo :: rest =>
    if 55296 ≤ hi.val ∧ hi.val ≤ 56319 ∧ 56320 ≤ lo.val ∧ lo.val ≤ 57343 then
      Char.ofNat (pairValue hi.val lo.val) :: quoteUnits rest
    else quoteUnit hi ++ quoteUnits (lo :: rest)

/-- QuoteJSONString. -/
def quote (s : JsString) : List Char :=
  '"' :: (quoteUnits s ++ ['"'])

/-- Whether `n / d` is at least `10 ^ t`. -/
def atLeastPow10 (n d : Nat) (t : Int) : Bool :=
  if 0 ≤ t then decide (d * 10 ^ t.toNat ≤ n) else decide (d ≤ n * 10 ^ (-t).toNat)

/-- The position of the decimal point of a positive `n / d`: the `p` with
`10 ^ (p - 1) ≤ n / d < 10 ^ p`. -/
def pointPosition (n d : Nat) : Int :=
  let t : Int := ((Nat.toDigits 10 n).length : Int) - ((Nat.toDigits 10 d).length : Int)
  if atLeastPow10 n d t then t + 1 else t

/-- The integer part of `(n / d) / 10 ^ t`. -/
def quotientPow10 (n d : Nat) (t : Int) : Nat :=
  if 0 ≤ t then n / (d * 10 ^ t.toNat) else n * 10 ^ (-t).toNat / d

/-- The two decimals of `k` digits that enclose the positive double
`mant * 2 ^ exp`, each as digits and position of the point, and whether the
lower one is at least as near (on a tie, whether it is even). -/
def enclosing (mant : Nat) (exp : Int) (k : Nat) : (Nat × Int) × (Nat × Int) × Bool :=
  let n := (scaled mant 1 (-exp)).1
  let d := (scaled mant 1 (-exp)).2
  let p := pointPosition n d
  let t : Int := p - (k : Int)
  let lo := quotientPow10 n d t
  let hi : Nat × Int := if lo + 1 = 10 ^ k then (10 ^ (k - 1), p + 1) else (lo + 1, p)
  let lowerNearer : Bool :=
    if atLeastPow10 (2 * n) (d * (2 * lo + 1)) t then
      (if atLeastPow10 (d * (2 * lo + 1)) (2 * n) (-t) then decide (lo % 2 = 0) else false)
    else true
  ((lo, p), hi, lowerNearer)

/-- The decimals of `k` digits that read back as the double, the nearer first. -/
def candidates (mant : Nat) (exp : Int) (k : Nat) : List (Nat × Int) :=
  let c := enclosing mant exp k
  let ordered := if c.2.2 then [c.1, c.2.1] else [c.2.1, c.1]
  ordered.filter fun sp =>
    decide (JsNumber.ofDecimal false sp.1 (sp.2 - (k : Int)) = .finite false mant exp)

/-- The shortest decimal that reads back as the positive double: its digits,
their number, and the position of the point (Number::toString, step 5).
Seventeen digits always suffice. -/
def shortest (mant : Nat) (exp : Int) : Nat × Nat × Int :=
  match (List.range 17).findSome? fun i =>
      (candidates mant exp (i + 1)).head?.map fun sp => (sp.1, i + 1, sp.2) with
  | some r => r
  | none => (0, 1, 1)

/-- The digits `s` as `k` characters. -/
def digitChars (s k : Nat) : List Char :=
  List.replicate (k - (Nat.toDigits 10 s).length) '0' ++ Nat.toDigits 10 s

/-- Number::toString of a positive double from its shortest decimal: plain
digits up to twenty-one places, a leading `0.` down to six zeros, the
exponential form beyond. -/
def formatNumber (s k : Nat) (p : Int) : List Char :=
  let ds := digitChars s k
  if (k : Int) ≤ p ∧ p ≤ 21 then ds ++ List.replicate (p - (k : Int)).toNat '0'
  else if 0 < p ∧ p ≤ 21 then ds.take p.toNat ++ '.' :: ds.drop p.toNat
  else if -6 < p ∧ p ≤ 0 then '0' :: '.' :: (List.replicate (-p).toNat '0' ++ ds)
  else
    let e := p - 1
    let sign := if e < 0 then '-' else '+'
    let tail := 'e' :: sign :: Nat.toDigits 10 e.natAbs
    if k = 1 then ds ++ tail else ds.take 1 ++ '.' :: (ds.drop 1 ++ tail)

/-- The text that `JSON.stringify` prints for a number: `null` for an infinity,
`0` for the two zeros, Number::toString otherwise. -/
def JsNumber.text : JsNumber → List Char
  | .infinite _ => ['n', 'u', 'l', 'l']
  | .finite negative mant exp =>
    if mant = 0 then ['0']
    else
      let r := shortest mant exp
      (if negative then ['-'] else []) ++ formatNumber r.1 r.2.1 r.2.2

/-- Indentation of nesting depth `depth` with a gap of two spaces. -/
def indentation (depth : Nat) : List Char :=
  List.replicate (2 * depth) ' '

/-- Join of the serialised members by a comma, a line feed and the indentation. -/
def joinLines (depth : Nat) : List (List Char) → List Char
  | [] => []
  | [x] => x
  | x :: rest => x ++ ',' :: '\n' :: (indentation depth ++ joinLines depth rest)

/-- A non-empty array or object: opening bracket, members one per line at depth
`depth + 1`, closing bracket at depth `depth`. -/
def wrap (opening closing : Char) (depth : Nat) (parts : List (List Char)) : List Char :=
  match parts with
  | [] => [opening, closing]
  | _ => opening :: '\n' :: (indentation (depth + 1) ++ joinLines (depth + 1) parts ++
      '\n' :: (indentation depth ++ [closing]))

mutual
/-- SerializeJSONProperty at nesting depth `depth`; `none` stands for the result
`undefined`. -/
def serialize (depth : Nat) : JsVal → Option (List Char)
  | .undefined => none
  | .null => some ['n', 'u', 'l', 'l']
  | .bool true => some ['t', 'r', 'u', 'e']
  | .bool false => some ['f', 'a', 'l', 's', 'e']
  | .num n => some n.text
  | .str s => some (quote s)
  | .arr items => some (wrap '[' ']' depth (serializeItems (depth + 1) items))
  | .obj props => some (wrap '{' '}' depth (serializeProps (depth + 1) props))
/-- The elements of an array: `undefined` is printed as `null`. -/
def serializeItems (depth : Nat) : List JsVal → List (List Char)
  | [] => []
  | x :: rest => ((serialize depth x).getD ['n', 'u', 'l', 'l']) :: serializeItems depth rest
/-- The properties of an object: one whose value is `undefined` is left out. -/
def serializeProps (depth : Nat) : List (JsString × JsVal) → List (List Char)
  | [] => []
  | (k, v) :: rest =>
    match serialize depth v with
    | none => serializeProps depth rest
    | some text => (quote k ++ ':' :: ' ' :: text) :: serializeProps depth rest
end

/-- The call `JSON.stringify(value, null, 2)`; `none` stands for the result `undefined`. -/
def JSON.stringify (value : JsVal) : Option (List Char) :=
  serialize 0 value

/-! ## JSON.parse -/

/-- The tokens of a JSON text. -/
inductive Token where
  | lbrace
  | rbrace
  | lbracket
  | rbracket
  | colon
  | comma
  | str (s : JsString)
  | num (n : JsNumber)
  | true
  | false
  | null
deriving DecidableEq, Repr

/-- JSON white space: space, tab, line feed, carriage return. -/
def isWhitespace (c : Char) : Bool :=
  c = ' ' || c = Char.ofNat 9 || c = Char.ofNat 10 || c = Char.ofNat 13

/-- A decimal digit. -/
def isDigit (c : Char) : Bool :=
  decide (48 ≤ c.toNat ∧ c.toNat ≤ 57)

/-- Value of a hexadecimal digit, of either case. -/
def hexVal (c : Char) : Option Nat :=
  if 48 ≤ c.toNat ∧ c.toNat ≤ 57 then some (c.toNat - 48)
  else if 97 ≤ c.toNat ∧ c.toNat ≤ 102 then some (c.toNat - 87)
  else if 65 ≤ c.toNat ∧ c.toNat ≤ 70 then some (c.toNat - 55)
  else none

/-- Value of four hexadecimal digits. -/
def hex4 (a b c d : Char) : Option Nat :=
  match hexVal a, hexVal b, hexVal c, hexVal d with
  | some x, some y, some z, some w => some (4096 * x + 256 * y + 16 * z + w)
  | _, _, _, _ => none

/-- The code unit a one-letter escape stands for. -/
def unescape (c : Char) : Option CodeUnit :=
  if c = '"' then some 34
  else if c = '\\' then some 92
  else if c = '/' then some 47
  else if c = 'b' then some 8
  else if c = 'f' then some 12
  else if c = 'n' then some 10
  else if c = 'r' then some 13
  else if c = 't' then some 9
  else none

/-- One step inside a string literal: the closing quote (`some (none, _)`), or the
code units of one written character or escape, each with the text after it.  A
`\u` escape is one code unit, whatever follows it.  A raw control character, an
unknown escape and the end of the text are syntax errors. -/
def lexStringStep (cs : List Char) : Option (Option (List CodeUnit) × List Char) :=
  match cs with
  | [] => none
  | c :: cs0 =>
    if c = '"' then some (none, cs0)
    else if c = '\\' then
      match cs0 with
      | [] => none
      | e :: cs1 =>
        if e = 'u' then
          match cs1 with
          | h1 :: h2 :: h3 :: h4 :: cs2 =>
            match hex4 h1 h2 h3 h4 with
            | none => none
            | some u => some (some [Fin.ofNat u], cs2)
          | _ => none
        else
          match unescape e with
          | none => none
          | some u => some (some [u], cs1)
    else if c.toNat < 32 then none
    else some (some (utf16Char c), cs0)

/-- Puts code units in front of the units that the rest of the scan yields. -/
def consUnits (us : List CodeUnit) (r : Option (JsString × List Char)) :
    Option (JsString × List Char) :=
  r.map fun p => (us ++ p.1, p.2)

/-- A string literal from the character after its opening quote: the string and
the text after the closing quote.  Every step consumes a character, so a budget
of the length of the text is never exhausted. -/
def lexString : Nat → List Char → Option (JsString × List Char)
  | 0, _ => none
  | fuel + 1, cs =>
    match lexStringStep cs with
    | none => none
    | some (none, rest) => some ([], rest)
    | some (some us, rest) => consUnits us (lexString fuel rest)

/-- The longest run of decimal digits at the head of a text, and what follows. -/
def takeDigits : List Char → List Char × List Char
  | [] => ([], [])
  | c :: cs =>
    if isDigit c then ((c :: (takeDigits cs).1), (takeDigits cs).2)
    else ([], c :: cs)

/-- Value of a run of decimal digits, given by their codes. -/
def digitsVal (ds : List Nat) : Nat :=
  ds.foldl (fun acc c => 10 * acc + (c - 48)) 0

/-- The exponent part of a number, when there is one: its value and what follows. -/
def lexExponent (cs : List Char) : Option (Int × List Char) :=
  match cs with
  | e :: rest =>
    if e = 'e' ∨ e = 'E' then
      match rest with
      | s :: rest1 =>
        if s = '-' then
          (if (takeDigits rest1).1 = [] then none
           else some (-(digitsVal ((takeDigits rest1).1.map Char.toNat) : Int),
             (takeDigits rest1).2))
        else if s = '+' then
          (if (takeDigits rest1).1 = [] then none
           else some ((digitsVal ((takeDigits rest1).1.map Char.toNat) : Int),
             (takeDigits rest1).2))
        else
          (if (takeDigits rest).1 = [] then none
           else some ((digitsVal ((takeDigits rest).1.map Char.toNat) : Int),
             (takeDigits rest).2))
      | [] => none
    else some (0, cs)
  | [] => some (0, cs)

/-- The fraction part of a number, when there is one: its digits and what follows. -/
def lexFraction (cs : List Char) : Option (List Char × List Char) :=
  match cs with
  | d :: rest =>
    if d = '.' then
      (if (takeDigits rest).1 = [] then none else some (takeDigits rest))
    else some ([], cs)
  | [] => some ([], cs)

/-- The digits of a number after its sign: integer part without a superfluous
leading zero, optional fraction, optional exponent; the result is the decimal
`m * 10 ^ e` that they write, as `(m, e)`. -/
def lexUnsigned (cs : List Char) : Option ((Nat × Int) × List Char) :=
  let ip := (takeDigits cs).1
  if ip = [] then none
  else if 1 < ip.length ∧ ip.head? = some '0' then none
  else
    match lexFraction (takeDigits cs).2 with
    | none => none
    | some (fp, rest) =>
      match lexExponent rest with
      | none => none
      | some (e, rest1) =>
        some ((digitsVal ((ip ++ fp).map Char.toNat), e - (fp.length : Int)), rest1)

/-- A number literal, rounded to the double it denotes. -/
def lexNumber (cs : List Char) : Option (JsNumber × List Char) :=
  match cs with
  | c :: rest =>
    if c = '-' then (lexUnsigned rest).map fun p => (JsNumber.ofDecimal Bool.true p.1.1 p.1.2, p.2)
    else (lexUnsigned cs).map fun p => (JsNumber.ofDecimal Bool.false p.1.1 p.1.2, p.2)
  | [] => none

/-- Puts a token in front of the tokens of the rest of the text. -/
def consToken (t : Token) (r : Option (List Token)) : Option (List Token) :=
  r.map fun ts => t :: ts

/-- One step of the scan of a text that is not at its end: a white-space
character is skipped (`some (none, _)`), or one token is read, each with the
text after it; `none` is a syntax error. -/
def lexStep (c : Char) (cs : List Char) : Option (Option Token × List Char) :=
  if isWhitespace c then some (none, cs)
  else if c = '{' then some (some .lbrace, cs)
  else if c = '}' then some (some .rbrace, cs)
  else if c = '[' then some (some .lbracket, cs)
  else if c = ']' then some (some .rbracket, cs)
  else if c = ':' then some (some .colon, cs)
  else if c = ',' then some (some .comma, cs)
  else if c = '"' then
    match lexString cs.length cs with
    | none => none
    | some (s, rest) => some (some (.str s), rest)
  else if c = 't' then
    match cs with
    | a :: b :: d :: rest =>
      if a = 'r' ∧ b = 'u' ∧ d = 'e' then some (some .true, rest) else none
    | _ => none
  else if c = 'f' then
    match cs with
    | a :: b :: d :: e :: rest =>
      if a = 'a' ∧ b = 'l' ∧ d = 's' ∧ e = 'e' then some (some .false, rest) else none
    | _ => none
  else if c = 'n' then
    match cs with
    | a :: b :: d :: rest =>
      if a = 'u' ∧ b = 'l' ∧ d = 'l' then some (some .null, rest) else none
    | _ => none
  else if c = '-' ∨ isDigit c then
    match lexNumber (c :: cs) with
    | none => none
    | some (n, rest) => some (some (.num n), rest)
  else none

/-- The tokens of a text; `none` is a syntax error.  Every step consumes a
character, so a budget of the length of the text is never exhausted. -/
def lex : Nat → List Char → Option (List Token)
  | _, [] => some []
  | 0, _ :: _ => none
  | fuel + 1, c :: cs =>
    match lexStep c cs with
    | none => none
    | some (none, rest) => lex fuel rest
    | some (some t, rest) => consToken t (lex fuel rest)

/-- The array index a property key denotes, when it is one: the canonical
decimal text of a number below `2 ^ 32 - 1`. -/
def arrayIndex (key : JsString) : Option Nat :=
  let cs := key.map Fin.val
  if cs = [] then none
  else if ¬ cs.all (fun c => decide (48 ≤ c ∧ c ≤ 57)) then none
  else if 1 < cs.length ∧ cs.head? = some 48 then none
  else if digitsVal cs < 4294967295 then some (digitsVal cs) else none

/-- Places a new array-index key among the properties: before the first key that
is a larger index or no index. -/
def insertIndex (n : Nat) (key : JsString) (v : JsVal) :
    List (JsString × JsVal) → List (JsString × JsVal)
  | [] => [(key, v)]
  | (k, w) :: rest =>
    match arrayIndex k with
    | some m => if m < n then (k, w) :: insertIndex n key v rest else (key, v) :: (k, w) :: rest
    | none => (key, v) :: (k, w) :: rest

/-- CreateDataProperty on the property list of an object, kept in the order in
which JavaScript enumerates own properties: a key already there keeps its place
and takes the new value, a new array index goes among the indices in ascending
order, any other new key goes last. -/
def defineProp (props : List (JsString × JsVal)) (key : JsString) (v : JsVal) :
    List (JsString × JsVal) :=
  if props.any (fun p => p.1 = key) then
    props.map fun p => if p.1 = key then (key, v) else p
  else
    match arrayIndex key with
    | some n => insertIndex n key v props
    | none => props ++ [(key, v)]

/-- The object that a list of parsed members builds. -/
def mkObject (members : List (JsString × JsVal)) : JsVal :=
  .obj (members.foldl (fun props m => defineProp props m.1 m.2) [])

mutual
/-- A JSON value at the head of the tokens, and the tokens after it. -/
def parseValue : Nat → List Token → Option (JsVal × List Token)
  | 0, _ => none
  | fuel + 1, toks =>
    match toks with
    | .null :: rest => some (.null, rest)
    | .true :: rest => some (.bool Bool.true, rest)
    | .false :: rest => some (.bool Bool.false, rest)
    | .num n :: rest => some (.num n, rest)
    | .str s :: rest => some (.str s, rest)
    | .lbracket :: .rbracket :: rest => some (.arr [], rest)
    | .lbracket :: rest =>
      match parseElements fuel rest with
      | none => none
      | some (items, rest1) => some (.arr items, rest1)
    | .lbrace :: .rbrace :: rest => some (mkObject [], rest)
    | .lbrace :: rest =>
      match parseMembers fuel rest with
      | none => none
      | some (members, rest1) => some (mkObject members, rest1)
    | _ => none
/-- The elements of a non-empty array up to its closing bracket. -/
def parseElements : Nat → List Token → Option (List JsVal × List Token)
  | 0, _ => none
  | fuel + 1, toks =>
    match parseValue fuel toks with
    | none => none
    | some (v, .comma :: rest) =>
      match parseElements fuel rest with
      | none => none
      | some (items, rest1) => some (v :: items, rest1)
    | some (v, .rbracket :: rest) => some ([v], rest)
    | some _ => none
/-- The members of a non-empty object up to its closing brace. -/
def parseMembers : Nat → List Token → Option (List (JsString × JsVal) × List Token)
  | 0, _ => none
  | fuel + 1, toks =>
    match toks with
    | .str key :: .colon :: rest =>
      match parseValue fuel rest with
      | none => none
      | some (v, .comma :: rest1) =>
        match parseMembers fuel rest1 with
        | none => none
        | some (members, rest2) => some ((key, v) :: members, rest2)
      | some (v, .rbrace :: rest1) => some ([(key, v)], rest1)
      | some _ => none
    | _ => none
end

/-- The call `JSON.parse(text)`; `none` stands for a SyntaxError.  The nesting of
the parser is bounded by twice the number of tokens. -/
def JSON.parse (text : List Char) : Option JsVal :=
  match lex text.length text with
  | none => none
  | some toks =>
    match parseValue (2 * toks.length + 1) toks with
    | some (v, []) => some v
    | _ => none

/-! ## The file `users.json` and the `fs` calls -/

/-- What the path `USERS_FILE` holds: nothing, something that cannot be opened
(missing permission, a directory), or a text.  What cannot be opened stays so:
a write to it throws, or goes through unseen by every later read. -/
inductive FileState where
  | absent
  | unreadable
  | content (text : List Char)
deriving DecidableEq, Repr

/-- How the call of `fs.writeFileSync` in a request ends.  It completes; or the
file cannot be opened for writing (missing permission, read-only disk) and is
left as it was; or the file is opened, which empties it, and the call throws
(full disk, device error) after `written` characters are in the file: when
these are not all, the bytes of a character cut in two read back as `torn`
replacement characters. -/
inductive WriteOutcome where
  | completes
  | refused
  | interrupted (written torn : Nat)
deriving DecidableEq, Repr

/-- What a request takes from its surroundings: the clock reading
`new Date().toISOString()`, and how its write ends. -/
structure Env where
  now : JsString
  write : WriteOutcome
deriving DecidableEq, Repr

/-- A text cut short: its first `written` characters, then `torn` replacement
characters. -/
def cut (text : List Char) (written torn : Nat) : List Char :=
  text.take written ++ List.replicate torn (Char.ofNat 65533)

/-- The call `fs.readFileSync(USERS_FILE)`. -/
def readFileSync (file : FileState) : Except JsError (List Char) :=
  match file with
  | .absent => .error (.fsError "ENOENT")
  | .unreadable => .error (.fsError "EACCES")
  | .content text => .ok text

/-- The call `fs.writeFileSync(USERS_FILE, data)`: whether it throws, and the
file after it.  The file is opened with the flag `w`, which creates or empties
it, then the data are written. -/
def writeFileSync (env : Env) (file : FileState) (data : List Char) :
    Except JsError Unit × FileState :=
  match file with
  | .unreadable => (.error (.fsError "EACCES"), .unreadable)
  | _ =>
    match env.write with
    | .completes => (.ok (), .content data)
    | .refused => (.error (.fsError "EACCES"), file)
    | .interrupted written torn =>
      (.error (.fsError "ENOSPC"),
        .content (if written < data.length then cut data written torn else data))

/-! ## server.js -/

/-- Source: `readUsersFromFile`.  The body of the `try` is the read followed by
`JSON.parse`; every exception is caught and answered with the empty array, with
or without the code `ENOENT`. -/
def readUsersFromFile (file : FileState) : JsVal :=
  let attempt : Except JsError JsVal :=
    match readFileSync file with
    | .error e => .error e
    | .ok rawData =>
      match JSON.parse rawData with
      | none => .error .syntaxError
      | some v => .ok v
  match attempt with
  | .ok v => v
  | .error error => if error.code = some "ENOENT" then .arr [] else .arr []

/-- Source: `writeUsersToFile`.  An exception of the `try` is caught and only
logged: the caller is not told, and the file is as the failed call left it.
When `JSON.stringify` gives `undefined`, `writeFileSync` rejects the argument
before it opens the file. -/
def writeUsersToFile (env : Env) (file : FileState) (users : JsVal) : FileState :=
  match JSON.stringify users with
  | none => file
  | some jsonData => (writeFileSync env file jsonData).2

/-- The fields that a handler takes out of `req.body`, the object that
body-parser leaves there from a form or a JSON document: a field that the body
lacks is `undefined`, a field of a form is a string, or an array of strings when
the form repeats the key, and a field of a JSON document is any JSON value. -/
structure Body where
  email : JsVal
  password : JsVal

/-- What `res.status(..).send(..)` sends; `res.send` alone keeps status 200. -/
structure Response where
  status : Nat
  text : String
deriving DecidableEq, Repr

/-- Source: the handler of `POST /signup`.  The result is the reply, or the
exception that escapes the handler, and the file after the request.  The line
logged before the reply embeds `email` in a template literal. -/
def signup (env : Env) (file : FileState) (body : Body) : Except JsError Response × FileState :=
  let email := body.email
  let password := body.password
  if !truthy email || !truthy password then
    (.ok ⟨400, "Email and password are required."⟩, file)
  else
    let users := readUsersFromFile file
    match users.find
        (fun user => (getField user (utf16 "email")).map fun e => strictEq e email) with
    | .error e => (.error e, file)
    | .ok existingUser =>
      if truthy existingUser then (.ok ⟨409, "Email already registered."⟩, file)
      else
        let newUser := JsVal.obj
          [(utf16 "email", email), (utf16 "password", password),
            (utf16 "timestamp", .str env.now)]
        match users.push newUser with
        | .error e => (.error e, file)
        | .ok users1 =>
          let file1 := writeUsersToFile env file users1
          match template email with
          | .error e => (.error e, file1)
          | .ok _ => (.ok ⟨200, "Signup successful!"⟩, file1)

/-- The callback of the login scan: `user.email === email && user.password === password`. -/
def credentialsMatch (email password user : JsVal) : Except JsError Bool :=
  match getField user (utf16 "email") with
  | .error e => .error e
  | .ok e =>
    if strictEq e email then
      (getField user (utf16 "password")).map fun p => strictEq p password
    else .ok false

/-- Source: the handler of `POST /login`.  Either branch logs a line that embeds
`email` in a template literal before it replies. -/
def login (file : FileState) (body : Body) : Except JsError Response × FileState :=
  let email := body.email
  let password := body.password
  if !truthy email || !truthy password then
    (.ok ⟨400, "Email and password are required."⟩, file)
  else
    let users := readUsersFromFile file
    match users.find (credentialsMatch email password) with
    | .error e => (.error e, file)
    | .ok user =>
      if truthy user then
        match template email with
        | .error e => (.error e, file)
        | .ok _ => (.ok ⟨200, "Login successful!"⟩, file)
      else
        match template email with
        | .error e => (.error e, file)
        | .ok _ => (.ok ⟨401, "Invalid credentials."⟩, file)

/-- The status the client sees: that of the reply, or 500 from the default error
handler of Express when an exception escapes the handler. -/
def httpStatus (r : Except JsError Response) : Nat :=
  match r with
  | .ok reply => reply.status
  | .error _ => 500

/-! ## The store of the specification -/

/-- A user record of the data model: three strings. -/
structure User where
  email : JsString
  password : JsString
  timestamp : JsString
deriving DecidableEq, Repr

/-- The object that a record is in the running program, with the properties in
the order in which the signup handler writes them. -/
def User.toJs (u : User) : JsVal :=
  .obj [(utf16 "email", .str u.email), (utf16 "password", .str u.password),
    (utf16 "timestamp", .str u.timestamp)]

/-- The array that a sequence of records is in the running program. -/
def storeOf (users : List User) : JsVal :=
  .arr (users.map User.toJs)

/-- Whether the write of a request goes through: `fs.writeFileSync` does not throw. -/
def writable (env : Env) (file : FileState) : Bool :=
  match (writeFileSync env file []).1 with
  | .ok _ => true
  | .error _ => false

/-! ## Auxiliary notions for the round trip -/

/-- The text that `JSON.stringify` prints for a record nested in the array. -/
def userText (u : User) : List Char :=
  wrap '{' '}' 1
    [quote (utf16 "email") ++ ':' :: ' ' :: quote u.email,
     quote (utf16 "password") ++ ':' :: ' ' :: quote u.password,
     quote (utf16 "timestamp") ++ ':' :: ' ' :: quote u.timestamp]

/-- The tokens of a record. -/
def userTokens (u : User) : List Token :=
  [.lbrace, .str (utf16 "email"), .colon, .str u.email, .comma, .str (utf16 "password"),
    .colon, .str u.password, .comma, .str (utf16 "timestamp"), .colon, .str u.timestamp,
    .rbrace]

/-- The tokens of the records of a non-empty array, commas between them. -/
def itemsTokens : List User → List Token
  | [] => []
  | [u] => userTokens u
  | u :: rest => userTokens u ++ .comma :: itemsTokens rest

/-- A text whose scan yields the tokens `ts` under every sufficient budget. -/
def LexTo (cs : List Char) (ts : List Token) : Prop :=
  ∀ fuel, cs.length ≤ fuel → lex fuel cs = some ts

/-- The tokens of the array of a sequence of records. -/
def storeTokens (users : List User) : List Token :=
  match users with
  | [] => [.lbracket, .rbracket]
  | _ => .lbracket :: (itemsTokens users ++ [.rbracket])

/-- The file that holds what `JSON.stringify` prints for a sequence of records. -/
def fileOf (users : List User) : FileState :=
  match JSON.stringify (storeOf users) with
  | some text => .content text
  | none => .absent

/-- A text of which no cut yields a closing bracket as a token. -/
def NoClosing (cs : List Char) : Prop :=
  ∀ written torn fuel ts, lex fuel (cut cs written torn) = some ts → Token.rbracket ∉ ts

/-- The text of a non-empty store without its last character, the closing
bracket. -/
def storeBody (u : User) (us : List User) : List Char :=
  '[' :: '\n' :: (indentation 1 ++ (joinLines 1 ((u :: us).map userText) ++
    '\n' :: (indentation 0 ++ [])))

/-! ## Notions of the specification -/

/-- A field of the request body that is absent (`undefined`) or empty (the
empty string). -/
def absentOrEmpty : JsVal → Bool
  | .undefined => true
  | .str s => decide (s = [])
  | _ => false

/-- A field of the request body that is absent or a string. -/
def stringOrAbsent : JsVal → Bool
  | .undefined => true
  | .str _ => true
  | _ => false

/-- A request to one of the two endpoints. -/
inductive Request where
  | signup (body : Body)
  | login (body : Body)

/-- The body of a request. -/
def Request.body : Request → Body
  | .signup body => body
  | .login body => body

/-- One request handled: the reply and the file after it. -/
def handle (env : Env) (file : FileState) (req : Request) : Except JsError Response × FileState :=
  match req with
  | .signup body => signup env file body
  | .login body => login file body

/-- Requests handled one after the other, each with its own surroundings: the
file after the last one. -/
def run (file : FileState) : List (Env × Request) → FileState
  | [] => file
  | (env, req) :: rest => run (handle env file req).2 rest

/-- The value of the property `email` of an element of the store. -/
def emailOf (user : JsVal) : JsVal :=
  match user with
  | .obj props => lookup (utf16 "email") props
  | _ => .undefined

/-- The emails of the elements of a store, in order. -/
def emailsOf (store : JsVal) : List JsVal :=
  match store with
  | .arr items => items.map emailOf
  | _ => []

/-- No two records of the store share the same email. -/
def distinctEmails (store : JsVal) : Prop :=
  (emailsOf store).Nodup

/-! ## Concrete inputs of the examples -/

/-- Surroundings in which the write goes through. -/
def calmEnv : Env := ⟨utf16 "2024-01-01T00:00:00.000Z", .completes⟩

/-- Surroundings in which `fs.writeFileSync` throws: the file cannot be opened
for writing. -/
def failingEnv : Env := ⟨utf16 "2024-01-01T00:00:00.000Z", .refused⟩

/-- A record used in the examples. -/
def alice : User := ⟨utf16 "a@x.com", utf16 "p1", utf16 "2023-12-31T00:00:00.000Z"⟩

/-- The request body of the scenario of the specification. -/
def aliceBody : Body := ⟨.str (utf16 "a@x.com"), .str (utf16 "p1")⟩

/-- A body as `bodyParser.urlencoded` builds it from a form that repeats the key
`email`: the field is an array of strings. -/
def arrayBody : Body :=
  ⟨.arr [.str (utf16 "a@x.com"), .str (utf16 "a@x.com")], .str (utf16 "p1")⟩

/-! # Theorems -/

/-! ## Reading back a quoted string -/

theorem hexVal_hexDigit (k : Nat) (h : k < 16) : hexVal (hexDigit k) = some k := by
  interval_cases k <;> rfl

theorem hex4_unicodeEscape (n : Nat) (h : n < 65536) :
    hex4 (hexDigit (n / 4096 % 16)) (hexDigit (n / 256 % 16)) (hexDigit (n / 16 % 16))
      (hexDigit (n % 16)) = some n := by
  have h1 := hexVal_hexDigit (n / 4096 % 16) (Nat.mod_lt _ (by decide))
  have h2 := hexVal_hexDigit (n / 256 % 16) (Nat.mod_lt _ (by decide))
  have h3 := hexVal_hexDigit (n / 16 % 16) (Nat.mod_lt _ (by decide))
  have h4 := hexVal_hexDigit (n % 16) (Nat.mod_lt _ (by decide))
  simp only [hex4, h1, h2, h3, h4, Option.some.injEq]
  omega

theorem ofNat_val (u : CodeUnit) : (Fin.ofNat u.val : CodeUnit) = u := by
  apply Fin.ext
  simp [Fin.ofNat, Nat.mod_eq_of_lt u.isLt]

theorem toNat_ofNat (n : Nat) (h : n.isValidChar) : (Char.ofNat n).toNat = n := by
  simp [Char.ofNat, h, Char.ofNatAux, Char.toNat]
  rfl

theorem lexStringStep_quote (rest : List Char) :
    lexStringStep ('"' :: rest) = some (none, rest) := by
  simp [lexStringStep]

theorem lexStringStep_quoteUnit (u : CodeUnit) (tail : List Char) :
    lexStringStep (quoteUnit u ++ tail) = some (some [u], tail) := by
  have hu := ofNat_val u
  unfold quoteUnit
  split_ifs with h1 h2 h3 h4 h5 h6 h7 h8
  · have : u = 8 := Fin.ext h1
    subst this; simp [lexStringStep, unescape]
  · have : u = 9 := Fin.ext h2
    subst this; simp [lexStringStep, unescape]
  · have : u = 10 := Fin.ext h3
    subst this; simp [lexStringStep, unescape]
  · have : u = 12 := Fin.ext h4
    subst this; simp [lexStringStep, unescape]
  · have : u = 13 := Fin.ext h5
    subst this; simp [lexStringStep, unescape]
  · have : u = 34 := Fin.ext h6
    subst this; simp [lexStringStep, unescape]
  · have : u = 92 := Fin.ext h7
    subst this; simp [lexStringStep, unescape]
  · have hx := hex4_unicodeEscape u.val u.isLt
    simp [unicodeEscape, lexStringStep, hx, hu]
  · have hlt := u.isLt
    have hvalid : Nat.isValidChar u.val := by
      simp only [Nat.isValidChar]; omega
    have ht := toNat_ofNat u.val hvalid
    have hq : Char.ofNat u.val ≠ '"' := by
      intro hc
      have := congrArg Char.toNat hc
      rw [ht] at this
      exact h6 this
    have hb : Char.ofNat u.val ≠ '\\' := by
      intro hc
      have := congrArg Char.toNat hc
      rw [ht] at this
      exact h7 this
    have hc : ¬ (Char.ofNat u.val).toNat < 32 := by
      rw [ht]; omega
    simp [lexStringStep, hq, hb, hc, utf16Char, ht, hlt, hu]
    omega

theorem lexStringStep_pair (hi lo : CodeUnit) (tail : List Char)
    (h : 55296 ≤ hi.val ∧ hi.val ≤ 56319 ∧ 56320 ≤ lo.val ∧ lo.val ≤ 57343) :
    lexStringStep (Char.ofNat (pairValue hi.val lo.val) :: tail) = some (some [hi, lo], tail) := by
  have hvalid : Nat.isValidChar (pairValue hi.val lo.val) := by
    simp only [Nat.isValidChar, pairValue]; omega
  have ht := toNat_ofNat _ hvalid
  have hge : 65536 ≤ pairValue hi.val lo.val := by
    simp only [pairValue]; omega
  have hq : Char.ofNat (pairValue hi.val lo.val) ≠ '"' := by
    intro hc
    have := congrArg Char.toNat hc
    rw [ht] at this
    have h34 : '"'.toNat = 34 := rfl
    omega
  have hb : Char.ofNat (pairValue hi.val lo.val) ≠ '\\' := by
    intro hc
    have := congrArg Char.toNat hc
    rw [ht] at this
    have h92 : '\\'.toNat = 92 := rfl
    omega
  have hc : ¬ (Char.ofNat (pairValue hi.val lo.val)).toNat < 32 := by
    rw [ht]; omega
  have hnot : ¬ pairValue hi.val lo.val < 65536 := by omega
  have e1 : (Fin.ofNat (55296 + (pairValue hi.val lo.val - 65536) / 1024) : CodeUnit) = hi := by
    apply Fin.ext
    simp only [Fin.ofNat, pairValue]
    omega
  have e2 : (Fin.ofNat (56320 + (pairValue hi.val lo.val - 65536) % 1024) : CodeUnit) = lo := by
    apply Fin.ext
    simp only [Fin.ofNat, pairValue]
    omega
  simp [lexStringStep, hq, hb, hc, utf16Char, ht, hnot, e1, e2]
  omega

theorem quoteUnit_length (u : CodeUnit) : 1 ≤ (quoteUnit u).length := by
  unfold quoteUnit
  split_ifs <;> simp [unicodeEscape]

theorem quoteUnits_pair (hi lo : CodeUnit) (tl : JsString)
    (hpair : 55296 ≤ hi.val ∧ hi.val ≤ 56319 ∧ 56320 ≤ lo.val ∧ lo.val ≤ 57343) :
    quoteUnits (hi :: lo :: tl) = Char.ofNat (pairValue hi.val lo.val) :: quoteUnits tl := by
  rw [quoteUnits, if_pos hpair]

theorem quoteUnits_single (hi lo : CodeUnit) (tl : JsString)
    (hpair : ¬ (55296 ≤ hi.val ∧ hi.val ≤ 56319 ∧ 56320 ≤ lo.val ∧ lo.val ≤ 57343)) :
    quoteUnits (hi :: lo :: tl) = quoteUnit hi ++ quoteUnits (lo :: tl) := by
  rw [quoteUnits, if_neg hpair]

theorem lexString_quoteUnits_aux (n : Nat) :
    ∀ (us : JsString) (rest : List Char) (fuel : Nat), us.length ≤ n →
      (quoteUnits us).length < fuel →
      lexString fuel (quoteUnits us ++ '"' :: rest) = some (us, rest) := by
  induction n using Nat.strong_induction_on with
  | _ n ih =>
    intro us rest fuel hn h
    obtain ⟨f, rfl⟩ : ∃ f, fuel = f + 1 := ⟨fuel - 1, by omega⟩
    match us with
    | [] =>
      simp only [quoteUnits, List.nil_append, lexString, lexStringStep_quote]
    | [u] =>
      have hl := quoteUnit_length u
      simp only [quoteUnits] at h ⊢
      obtain ⟨g, rfl⟩ : ∃ g, f = g + 1 := ⟨f - 1, by omega⟩
      simp only [lexString, lexStringStep_quoteUnit, lexStringStep_quote, consUnits,
        Option.map_some', List.append_nil]
    | hi :: lo :: tl =>
      simp only [List.length_cons] at hn
      by_cases hpair : 55296 ≤ hi.val ∧ hi.val ≤ 56319 ∧ 56320 ≤ lo.val ∧ lo.val ≤ 57343
      · rw [quoteUnits_pair hi lo tl hpair] at h ⊢
        simp only [List.length_cons] at h
        rw [List.cons_append, lexString, lexStringStep_pair hi lo _ hpair]
        simp only [ih tl.length (by omega) tl rest f (Nat.le_refl _) (by omega)]
        rfl
      · have hl := quoteUnit_length hi
        rw [quoteUnits_single hi lo tl hpair] at h ⊢
        simp only [List.length_append] at h
        rw [List.append_assoc, lexString, lexStringStep_quoteUnit]
        simp only [ih (tl.length + 1) (by omega) (lo :: tl) rest f (by simp) (by omega)]
        rfl

theorem lexString_quoteUnits (us : JsString) (rest : List Char) (fuel : Nat)
    (h : (quoteUnits us).length < fuel) :
    lexString fuel (quoteUnits us ++ '"' :: rest) = some (us, rest) :=
  lexString_quoteUnits_aux us.length us rest fuel (Nat.le_refl _) h

theorem lexStep_quote (s : JsString) (rest : List Char) :
    lexStep '"' (quoteUnits s ++ '"' :: rest) = some (some (.str s), rest) := by
  have hlen : (quoteUnits s).length < (quoteUnits s ++ '"' :: rest).length := by
    simp only [List.length_append, List.length_cons]
    omega
  have hl := lexString_quoteUnits s rest _ hlen
  unfold lexStep
  rw [hl]
  simp [isWhitespace]

/-! ## The budgets of the scanner are never exhausted -/

theorem lexStringStep_rest (cs : List Char) (x : Option (List CodeUnit)) (rest : List Char)
    (h : lexStringStep cs = some (x, rest)) : rest.length < cs.length := by
  unfold lexStringStep at h
  split at h
  · simp at h
  · rename_i c cs0
    split_ifs at h with h1 h2 h3
    · simp only [Option.some.injEq, Prod.mk.injEq] at h
      rw [← h.2]; simp
    · split at h
      · simp at h
      · rename_i e cs1
        split_ifs at h with h5
        · split at h
          · rename_i a b c d cs2
            split at h
            · simp at h
            · simp only [Option.some.injEq, Prod.mk.injEq] at h
              rw [← h.2]; simp only [List.length_cons]; omega
          · simp at h
        · split at h
          · simp at h
          · simp only [Option.some.injEq, Prod.mk.injEq] at h
            rw [← h.2]; simp only [List.length_cons]; omega
    · simp only [Option.some.injEq, Prod.mk.injEq] at h
      rw [← h.2]; simp

theorem lexString_rest (fuel : Nat) (cs : List Char) (units : JsString) (rest : List Char)
    (h : lexString fuel cs = some (units, rest)) : rest.length < cs.length := by
  induction fuel generalizing cs units rest with
  | zero => simp [lexString] at h
  | succ f ih =>
    unfold lexString at h
    split at h
    · simp at h
    · rename_i r hstep
      simp only [Option.some.injEq, Prod.mk.injEq] at h
      have := lexStringStep_rest _ _ _ hstep
      rw [← h.2]; exact this
    · rename_i u r hstep
      have h1 := lexStringStep_rest _ _ _ hstep
      cases hrec : lexString f r with
      | none => simp [hrec, consUnits] at h
      | some p =>
        obtain ⟨us, r1⟩ := p
        have h2 := ih r us r1 hrec
        simp only [hrec, consUnits, Option.map_some', Option.some.injEq, Prod.mk.injEq] at h
        rw [← h.2]
        omega

theorem lexString_fuel (f g : Nat) (cs : List Char) (hf : cs.length ≤ f) (hg : cs.length ≤ g) :
    lexString f cs = lexString g cs := by
  induction f generalizing g cs with
  | zero =>
    have : cs = [] := by simpa using hf
    subst this
    cases g <;> simp [lexString, lexStringStep]
  | succ f ih =>
    cases g with
    | zero =>
      have : cs = [] := by simpa using hg
      subst this
      simp [lexString, lexStringStep]
    | succ g =>
      simp only [lexString]
      cases hstep : lexStringStep cs with
      | none => rfl
      | some p =>
        obtain ⟨x, r⟩ := p
        have hr := lexStringStep_rest _ _ _ hstep
        cases x with
        | none => rfl
        | some u =>
          simp only
          rw [ih g r (by omega) (by omega)]

theorem takeDigits_length (cs : List Char) :
    (takeDigits cs).1.length + (takeDigits cs).2.length = cs.length := by
  induction cs with
  | nil => rfl
  | cons c cs ih =>
    unfold takeDigits
    split_ifs
    · simp only [List.length_cons]; omega
    · simp

theorem lexExponent_rest (cs : List Char) (e : Int) (rest : List Char)
    (h : lexExponent cs = some (e, rest)) : rest.length ≤ cs.length := by
  cases cs with
  | nil =>
    simp only [lexExponent] at h
    cases h
    exact Nat.le_refl _
  | cons c r =>
    simp only [lexExponent] at h
    by_cases hc : c = 'e' ∨ c = 'E'
    · rw [if_pos hc] at h
      cases r with
      | nil => simp at h
      | cons s r1 =>
        have h0 := takeDigits_length (s :: r1)
        have h1 := takeDigits_length r1
        simp only [List.length_cons] at h0 ⊢
        simp only at h
        split_ifs at h <;> cases h <;> omega
    · rw [if_neg hc] at h
      cases h
      exact Nat.le_refl _

theorem lexFraction_rest (cs : List Char) (fp rest : List Char)
    (h : lexFraction cs = some (fp, rest)) : rest.length ≤ cs.length := by
  cases cs with
  | nil =>
    simp only [lexFraction] at h
    cases h
    exact Nat.le_refl _
  | cons c r =>
    simp only [lexFraction] at h
    have h0 := takeDigits_length r
    simp only [List.length_cons]
    split_ifs at h
    · simp only [Option.some.injEq] at h
      rw [h] at h0
      simp only at h0
      omega
    · cases h
      simp

theorem lexUnsigned_rest (cs : List Char) (n : Nat × Int) (rest : List Char)
    (h : lexUnsigned cs = some (n, rest)) : rest.length < cs.length := by
  unfold lexUnsigned at h
  have h0 := takeDigits_length cs
  simp only at h
  split_ifs at h with h1 h2
  cases hfrac : lexFraction (takeDigits cs).2 with
  | none => simp [hfrac] at h
  | some p =>
    obtain ⟨fp, r⟩ := p
    have h3 := lexFraction_rest _ _ _ hfrac
    simp only [hfrac] at h
    cases hexp : lexExponent r with
    | none => simp [hexp] at h
    | some q =>
      obtain ⟨e, r1⟩ := q
      have h4 := lexExponent_rest _ _ _ hexp
      simp only [hexp, Option.some.injEq, Prod.mk.injEq] at h
      rw [← h.2]
      have h5 : 0 < (takeDigits cs).1.length := List.length_pos.mpr h1
      omega

theorem lexNumber_rest (cs : List Char) (n : JsNumber) (rest : List Char)
    (h : lexNumber cs = some (n, rest)) : rest.length < cs.length := by
  cases cs with
  | nil => simp [lexNumber] at h
  | cons c r =>
    simp only [lexNumber] at h
    split_ifs at h
    · cases hu : lexUnsigned r with
      | none => simp [hu] at h
      | some p =>
        have := lexUnsigned_rest r p.1 p.2 hu
        simp only [hu, Option.map_some', Option.some.injEq, Prod.mk.injEq] at h
        rw [← h.2]
        simp only [List.length_cons]
        omega
    · cases hu : lexUnsigned (c :: r) with
      | none => simp [hu] at h
      | some p =>
        have := lexUnsigned_rest (c :: r) p.1 p.2 hu
        simp only [hu, Option.map_some', Option.some.injEq, Prod.mk.injEq] at h
        rw [← h.2]
        exact this

theorem lexStep_rest (c : Char) (cs : List Char) (t : Option Token) (rest : List Char)
    (h : lexStep c cs = some (t, rest)) : rest.length ≤ cs.length := by
  unfold lexStep at h
  by_cases h1 : isWhitespace c = true
  · rw [if_pos h1] at h; cases h; exact Nat.le_refl _
  rw [if_neg h1] at h
  by_cases h2 : c = '{'
  · rw [if_pos h2] at h; cases h; exact Nat.le_refl _
  rw [if_neg h2] at h
  by_cases h3 : c = '}'
  · rw [if_pos h3] at h; cases h; exact Nat.le_refl _
  rw [if_neg h3] at h
  by_cases h4 : c = '['
  · rw [if_pos h4] at h; cases h; exact Nat.le_refl _
  rw [if_neg h4] at h
  by_cases h5 : c = ']'
  · rw [if_pos h5] at h; cases h; exact Nat.le_refl _
  rw [if_neg h5] at h
  by_cases h6 : c = ':'
  · rw [if_pos h6] at h; cases h; exact Nat.le_refl _
  rw [if_neg h6] at h
  by_cases h7 : c = ','
  · rw [if_pos h7] at h; cases h; exact Nat.le_refl _
  rw [if_neg h7] at h
  by_cases h8 : c = '"'
  · rw [if_pos h8] at h
    cases hs : lexString cs.length cs with
    | none => simp [hs] at h
    | some p =>
      have := lexString_rest _ _ p.1 p.2 hs
      simp only [hs, Option.some.injEq, Prod.mk.injEq] at h
      rw [← h.2]; omega
  rw [if_neg h8] at h
  by_cases h9 : c = 't'
  · rw [if_pos h9] at h
    split at h
    · split_ifs at h
      cases h
      simp only [List.length_cons]; omega
    · simp at h
  rw [if_neg h9] at h
  by_cases h10 : c = 'f'
  · rw [if_pos h10] at h
    split at h
    · split_ifs at h
      cases h
      simp only [List.length_cons]; omega
    · simp at h
  rw [if_neg h10] at h
  by_cases h11 : c = 'n'
  · rw [if_pos h11] at h
    split at h
    · split_ifs at h
      cases h
      simp only [List.length_cons]; omega
    · simp at h
  rw [if_neg h11] at h
  by_cases h12 : c = '-' ∨ isDigit c = true
  · rw [if_pos h12] at h
    cases hn : lexNumber (c :: cs) with
    | none => simp [hn] at h
    | some p =>
      have := lexNumber_rest _ p.1 p.2 hn
      simp only [hn, Option.some.injEq, Prod.mk.injEq] at h
      rw [← h.2]
      simp only [List.length_cons] at this
      omega
  · rw [if_neg h12] at h
    simp at h

/-- Scanner budget: every budget that is at least the length of the text gives
the same result, so `none` is a syntax error and never an exhausted budget. -/
theorem lex_fuel (f g : Nat) (cs : List Char) (hf : cs.length ≤ f) (hg : cs.length ≤ g) :
    lex f cs = lex g cs := by
  induction f generalizing g cs with
  | zero =>
    have : cs = [] := by simpa using hf
    subst this
    cases g <;> rfl
  | succ f ih =>
    cases cs with
    | nil => cases g <;> rfl
    | cons c cs0 =>
      cases g with
      | zero => simp at hg
      | succ g =>
        simp only [lex]
        simp only [List.length_cons] at hf hg
        cases hstep : lexStep c cs0 with
        | none => rfl
        | some p =>
          obtain ⟨x, r⟩ := p
          have hr := lexStep_rest _ _ _ _ hstep
          cases x with
          | none => exact ih g r (by omega) (by omega)
          | some t =>
            simp only
            rw [ih g r (by omega) (by omega)]

/-! ## Scanning the text of a store -/

theorem lexTo_nil : LexTo [] [] := by
  intro fuel _
  cases fuel <;> rfl

theorem lexTo_skip (c : Char) (cs : List Char) (ts : List Token) (hc : isWhitespace c = true)
    (h : LexTo cs ts) : LexTo (c :: cs) ts := by
  intro fuel hf
  obtain ⟨f, rfl⟩ : ∃ f, fuel = f + 1 := ⟨fuel - 1, by simp at hf; omega⟩
  have hf1 : cs.length ≤ f := by simpa using hf
  simp [lex, lexStep, hc, h f hf1]

theorem lexTo_token (c : Char) (t : Token) (cs rest : List Char) (ts : List Token)
    (hstep : lexStep c cs = some (some t, rest)) (hlen : rest.length ≤ cs.length)
    (h : LexTo rest ts) : LexTo (c :: cs) (t :: ts) := by
  intro fuel hf
  obtain ⟨f, rfl⟩ : ∃ f, fuel = f + 1 := ⟨fuel - 1, by simp at hf; omega⟩
  have hf1 : rest.length ≤ f := by simp at hf; omega
  simp [lex, hstep, h f hf1, consToken]

theorem lexTo_indentation (depth : Nat) (cs : List Char) (ts : List Token) (h : LexTo cs ts) :
    LexTo (indentation depth ++ cs) ts := by
  unfold indentation
  induction 2 * depth with
  | zero => simpa using h
  | succ n ih =>
    simp only [List.replicate_succ, List.cons_append]
    exact lexTo_skip _ _ _ (by decide) ih

theorem lexTo_quote (s : JsString) (cs : List Char) (ts : List Token) (h : LexTo cs ts) :
    LexTo (quote s ++ cs) (.str s :: ts) := by
  have hq : quote s ++ cs = '"' :: (quoteUnits s ++ '"' :: cs) := by
    simp [quote]
  rw [hq]
  refine lexTo_token _ _ _ cs _ (lexStep_quote s cs) ?_ h
  simp only [List.length_append, List.length_cons]
  omega

theorem lexTo_punct (c : Char) (t : Token) (cs : List Char) (ts : List Token)
    (hstep : lexStep c cs = some (some t, cs)) (h : LexTo cs ts) : LexTo (c :: cs) (t :: ts) :=
  lexTo_token c t cs cs ts hstep (Nat.le_refl _) h

theorem lexTo_userText (u : User) (cs : List Char) (ts : List Token) (h : LexTo cs ts) :
    LexTo (userText u ++ cs) (userTokens u ++ ts) := by
  simp only [userText, userTokens, wrap, joinLines, List.append_assoc, List.cons_append,
    List.nil_append]
  apply lexTo_punct _ _ _ _ (by simp [lexStep, isWhitespace])
  apply lexTo_skip _ _ _ (by decide)
  apply lexTo_indentation
  apply lexTo_quote
  apply lexTo_punct _ _ _ _ (by simp [lexStep, isWhitespace])
  apply lexTo_skip _ _ _ (by decide)
  apply lexTo_quote
  apply lexTo_punct _ _ _ _ (by simp [lexStep, isWhitespace])
  apply lexTo_skip _ _ _ (by decide)
  apply lexTo_indentation
  apply lexTo_quote
  apply lexTo_punct _ _ _ _ (by simp [lexStep, isWhitespace])
  apply lexTo_skip _ _ _ (by decide)
  apply lexTo_quote
  apply lexTo_punct _ _ _ _ (by simp [lexStep, isWhitespace])
  apply lexTo_skip _ _ _ (by decide)
  apply lexTo_indentation
  apply lexTo_quote
  apply lexTo_punct _ _ _ _ (by simp [lexStep, isWhitespace])
  apply lexTo_skip _ _ _ (by decide)
  apply lexTo_quote
  apply lexTo_skip _ _ _ (by decide)
  apply lexTo_indentation
  apply lexTo_punct _ _ _ _ (by simp [lexStep, isWhitespace])
  exact h

theorem lexTo_items (u : User) (us : List User) (cs : List Char) (ts : List Token)
    (h : LexTo cs ts) :
    LexTo (joinLines 1 ((u :: us).map userText) ++ cs) (itemsTokens (u :: us) ++ ts) := by
  induction us generalizing u with
  | nil => simpa [joinLines, itemsTokens] using lexTo_userText u cs ts h
  | cons v vs ih =>
    simp only [List.map, joinLines, itemsTokens, List.append_assoc, List.cons_append]
    apply lexTo_userText
    apply lexTo_punct _ _ _ _ (by simp [lexStep, isWhitespace])
    apply lexTo_skip _ _ _ (by decide)
    apply lexTo_indentation
    exact ih v

theorem serialize_user (u : User) : serialize 1 u.toJs = some (userText u) := by
  simp [User.toJs, serialize, serializeProps, userText]

theorem serializeItems_users (users : List User) :
    serializeItems 1 (users.map User.toJs) = users.map userText := by
  induction users with
  | nil => simp [serializeItems]
  | cons u us ih => simp [serializeItems, serialize_user, ih]

theorem stringify_store (users : List User) :
    JSON.stringify (storeOf users) = some (wrap '[' ']' 0 (users.map userText)) := by
  simp [JSON.stringify, storeOf, serialize, serializeItems_users]

theorem lexTo_store (users : List User) :
    LexTo (wrap '[' ']' 0 (users.map userText)) (storeTokens users) := by
  cases users with
  | nil =>
    simp only [List.map, wrap, storeTokens]
    apply lexTo_punct _ _ _ _ (by simp [lexStep, isWhitespace])
    apply lexTo_punct _ _ _ _ (by simp [lexStep, isWhitespace])
    exact lexTo_nil
  | cons u us =>
    simp only [List.map, wrap, storeTokens, List.append_assoc, List.cons_append]
    apply lexTo_punct _ _ _ _ (by simp [lexStep, isWhitespace])
    apply lexTo_skip _ _ _ (by decide)
    apply lexTo_indentation
    apply lexTo_items u us
    apply lexTo_skip _ _ _ (by decide)
    apply lexTo_indentation
    apply lexTo_punct _ _ _ _ (by simp [lexStep, isWhitespace])
    exact lexTo_nil

/-! ## Parsing the tokens of a store -/

theorem mkObject_user (u : User) :
    mkObject [((utf16 "email"), .str u.email), ((utf16 "password"), .str u.password),
      ((utf16 "timestamp"), .str u.timestamp)] = u.toJs := by
  rfl

theorem parseValue_user (u : User) (rest : List Token) (fuel : Nat) :
    parseValue (fuel + 5) (userTokens u ++ rest) = some (u.toJs, rest) := by
  simp [userTokens, parseValue, parseMembers, mkObject_user]

theorem parseElements_items (u : User) (us : List User) (rest : List Token) (fuel : Nat) :
    parseElements (fuel + 6 + us.length) (itemsTokens (u :: us) ++ .rbracket :: rest) =
      some ((u :: us).map User.toJs, rest) := by
  induction us generalizing u fuel with
  | nil =>
    simp only [itemsTokens, List.length_nil, Nat.add_zero, List.map]
    simp [parseElements, parseValue_user]
  | cons v vs ih =>
    have hp : parseValue (fuel + 6 + vs.length)
        (userTokens u ++ .comma :: (itemsTokens (v :: vs) ++ .rbracket :: rest)) =
        some (u.toJs, .comma :: (itemsTokens (v :: vs) ++ .rbracket :: rest)) := by
      have := parseValue_user u (.comma :: (itemsTokens (v :: vs) ++ .rbracket :: rest))
        (fuel + 1 + vs.length)
      rw [← this]
      congr 1
      omega
    have hfuel : fuel + 6 + (v :: vs).length = (fuel + 6 + vs.length) + 1 := by
      simp only [List.length_cons]
      omega
    rw [hfuel]
    simp only [itemsTokens, List.append_assoc, List.cons_append, parseElements, hp, ih v fuel]
    simp

theorem itemsTokens_head (u : User) (us : List User) :
    ∃ tl, itemsTokens (u :: us) = .lbrace :: tl := by
  cases us with
  | nil => exact ⟨_, rfl⟩
  | cons v vs => exact ⟨_, rfl⟩

theorem itemsTokens_length (u : User) (us : List User) :
    us.length < (itemsTokens (u :: us)).length := by
  induction us generalizing u with
  | nil => simp [itemsTokens, userTokens]
  | cons v vs ih =>
    have := ih v
    simp only [itemsTokens, List.length_append, List.length_cons] at this ⊢
    omega

theorem parseValue_store (users : List User) :
    parseValue (2 * (storeTokens users).length + 1) (storeTokens users) =
      some (storeOf users, []) := by
  cases users with
  | nil => simp [storeTokens, parseValue, storeOf]
  | cons u us =>
    have hlen := itemsTokens_length u us
    obtain ⟨tl, htl⟩ := itemsTokens_head u us
    have hitems := parseElements_items u us []
      (2 * (storeTokens (u :: us)).length - (6 + us.length))
    have hfuel : 2 * (storeTokens (u :: us)).length - (6 + us.length) + 6 + us.length =
        2 * (storeTokens (u :: us)).length := by
      simp only [storeTokens, List.length_cons, List.length_append, List.length_nil]
      simp only [htl, List.length_cons] at hlen ⊢
      omega
    rw [hfuel] at hitems
    simp only [storeTokens, htl, List.cons_append, parseValue] at hitems ⊢
    rw [hitems]
    rfl

theorem parse_store_text (users : List User) :
    JSON.parse (wrap '[' ']' 0 (users.map userText)) = some (storeOf users) := by
  have hlex := lexTo_store users _ (Nat.le_refl _)
  simp [JSON.parse, hlex, parseValue_store]

theorem parse_fuel_aux (f : Nat) :
    (∀ toks v rest, parseValue f toks = some (v, rest) →
      rest.length < toks.length ∧
        ∀ g, 2 * (toks.length - rest.length) ≤ g + 1 → parseValue g toks = some (v, rest)) ∧
    (∀ toks vs rest, parseElements f toks = some (vs, rest) →
      rest.length + 2 ≤ toks.length ∧
        ∀ g, 2 * (toks.length - rest.length) ≤ g → parseElements g toks = some (vs, rest)) ∧
    (∀ toks ms rest, parseMembers f toks = some (ms, rest) →
      rest.length + 2 ≤ toks.length ∧
        ∀ g, 2 * (toks.length - rest.length) ≤ g → parseMembers g toks = some (ms, rest)) := by
  induction f with
  | zero =>
    refine ⟨?_, ?_, ?_⟩ <;> intro toks v rest h
    · simp [parseValue] at h
    · simp [parseElements] at h
    · simp [parseMembers] at h
  | succ f ih =>
    obtain ⟨ihV, ihE, ihM⟩ := ih
    refine ⟨?_, ?_, ?_⟩
    · intro toks v rest h
      unfold parseValue at h
      split at h
      · cases h
        refine ⟨by simp only [List.length_cons]; omega, ?_⟩
        intro g hg
        obtain ⟨g1, rfl⟩ : ∃ g1, g = g1 + 1 := ⟨g - 1, by simp at hg; omega⟩
        simp [parseValue]
      · cases h
        refine ⟨by simp only [List.length_cons]; omega, ?_⟩
        intro g hg
        obtain ⟨g1, rfl⟩ : ∃ g1, g = g1 + 1 := ⟨g - 1, by simp at hg; omega⟩
        simp [parseValue]
      · cases h
        refine ⟨by simp only [List.length_cons]; omega, ?_⟩
        intro g hg
        obtain ⟨g1, rfl⟩ : ∃ g1, g = g1 + 1 := ⟨g - 1, by simp at hg; omega⟩
        simp [parseValue]
      · cases h
        refine ⟨by simp only [List.length_cons]; omega, ?_⟩
        intro g hg
        obtain ⟨g1, rfl⟩ : ∃ g1, g = g1 + 1 := ⟨g - 1, by simp at hg; omega⟩
        simp [parseValue]
      · cases h
        refine ⟨by simp only [List.length_cons]; omega, ?_⟩
        intro g hg
        obtain ⟨g1, rfl⟩ : ∃ g1, g = g1 + 1 := ⟨g - 1, by simp at hg; omega⟩
        simp [parseValue]
      · cases h
        refine ⟨by simp only [List.length_cons]; omega, ?_⟩
        intro g hg
        obtain ⟨g1, rfl⟩ : ∃ g1, g = g1 + 1 := ⟨g - 1, by simp at hg; omega⟩
        simp [parseValue]
      · rename_i r hno
        cases hE : parseElements f r with
        | none => simp [hE] at h
        | some p =>
          obtain ⟨items, r1⟩ := p
          simp only [hE, Option.some.injEq, Prod.mk.injEq] at h
          obtain ⟨hv, hr⟩ := h
          subst hv hr
          obtain ⟨hlen, hfuel⟩ := ihE r items r1 hE
          refine ⟨by simp only [List.length_cons]; omega, ?_⟩
          intro g hg
          obtain ⟨g1, rfl⟩ : ∃ g1, g = g1 + 1 :=
            ⟨g - 1, by simp only [List.length_cons] at hg; omega⟩
          have hE1 := hfuel g1 (by simp only [List.length_cons] at hg; omega)
          unfold parseValue
          split
          all_goals first
            | (rename_i heq; cases heq; done)
            | skip
          · rename_i heq
            cases heq
            exact absurd rfl (hno _)
          · rename_i heq
            cases heq
            simp [hE1]
          · exact (‹∀ (rest : List Token), Token.lbracket :: r = Token.lbracket :: rest → False›
              r rfl).elim
      · cases h
        refine ⟨by simp only [List.length_cons]; omega, ?_⟩
        intro g hg
        obtain ⟨g1, rfl⟩ : ∃ g1, g = g1 + 1 := ⟨g - 1, by simp at hg; omega⟩
        simp [parseValue]
      · rename_i r hno
        cases hM : parseMembers f r with
        | none => simp [hM] at h
        | some p =>
          obtain ⟨members, r1⟩ := p
          simp only [hM, Option.some.injEq, Prod.mk.injEq] at h
          obtain ⟨hv, hr⟩ := h
          subst hv hr
          obtain ⟨hlen, hfuel⟩ := ihM r members r1 hM
          refine ⟨by simp only [List.length_cons]; omega, ?_⟩
          intro g hg
          obtain ⟨g1, rfl⟩ : ∃ g1, g = g1 + 1 :=
            ⟨g - 1, by simp only [List.length_cons] at hg; omega⟩
          have hM1 := hfuel g1 (by simp only [List.length_cons] at hg; omega)
          unfold parseValue
          split
          all_goals first
            | (rename_i heq; cases heq; done)
            | skip
          · rename_i heq
            cases heq
            exact absurd rfl (hno _)
          · rename_i heq
            cases heq
            simp [hM1]
          · exact (‹∀ (rest : List Token), Token.lbrace :: r = Token.lbrace :: rest → False›
              r rfl).elim
      · simp at h
    · intro toks vs rest h
      unfold parseElements at h
      cases hV : parseValue f toks with
      | none => simp [hV] at h
      | some p =>
        obtain ⟨v, r⟩ := p
        obtain ⟨hlenV, hfuelV⟩ := ihV toks v r hV
        rw [hV] at h
        split at h
        · simp at h
        · rename_i v1 r1 heq
          simp only [Option.some.injEq, Prod.mk.injEq] at heq
          obtain ⟨hv, hr⟩ := heq
          subst hv hr
          cases hE : parseElements f r1 with
          | none => simp [hE] at h
          | some q =>
            obtain ⟨items, r2⟩ := q
            simp only [hE, Option.some.injEq, Prod.mk.injEq] at h
            obtain ⟨hvs, hrest⟩ := h
            subst hvs hrest
            obtain ⟨hlenE, hfuelE⟩ := ihE r1 items r2 hE
            simp only [List.length_cons] at hlenV hfuelV
            refine ⟨by omega, ?_⟩
            intro g hg
            obtain ⟨g1, rfl⟩ : ∃ g1, g = g1 + 1 := ⟨g - 1, by omega⟩
            have hV1 := hfuelV g1 (by omega)
            have hE1 := hfuelE g1 (by omega)
            simp [parseElements, hV1, hE1]
        · rename_i v1 r1 heq
          simp only [Option.some.injEq, Prod.mk.injEq] at heq
          obtain ⟨hv, hr⟩ := heq
          subst hv hr
          simp only [Option.some.injEq, Prod.mk.injEq] at h
          obtain ⟨hvs, hrest⟩ := h
          subst hvs hrest
          simp only [List.length_cons] at hlenV hfuelV
          refine ⟨by omega, ?_⟩
          intro g hg
          obtain ⟨g1, rfl⟩ : ∃ g1, g = g1 + 1 := ⟨g - 1, by omega⟩
          have hV1 := hfuelV g1 (by omega)
          simp [parseElements, hV1]
        · simp at h
    · intro toks ms rest h
      unfold parseMembers at h
      split at h
      · rename_i key r
        cases hV : parseValue f r with
        | none => simp [hV] at h
        | some p =>
          obtain ⟨v, r0⟩ := p
          obtain ⟨hlenV, hfuelV⟩ := ihV r v r0 hV
          rw [hV] at h
          split at h
          · simp at h
          · rename_i v1 r1 heq
            simp only [Option.some.injEq, Prod.mk.injEq] at heq
            obtain ⟨hv, hr⟩ := heq
            subst hv hr
            cases hM : parseMembers f r1 with
            | none => simp [hM] at h
            | some q =>
              obtain ⟨members, r2⟩ := q
              simp only [hM, Option.some.injEq, Prod.mk.injEq] at h
              obtain ⟨hms, hrest⟩ := h
              subst hms hrest
              obtain ⟨hlenM, hfuelM⟩ := ihM r1 members r2 hM
              simp only [List.length_cons] at hlenV hfuelV ⊢
              refine ⟨by omega, ?_⟩
              intro g hg
              obtain ⟨g1, rfl⟩ : ∃ g1, g = g1 + 1 := ⟨g - 1, by omega⟩
              have hV1 := hfuelV g1 (by omega)
              have hM1 := hfuelM g1 (by omega)
              simp [parseMembers, hV1, hM1]
          · rename_i v1 r1 heq
            simp only [Option.some.injEq, Prod.mk.injEq] at heq
            obtain ⟨hv, hr⟩ := heq
            subst hv hr
            simp only [Option.some.injEq, Prod.mk.injEq] at h
            obtain ⟨hms, hrest⟩ := h
            subst hms hrest
            simp only [List.length_cons] at hlenV hfuelV ⊢
            refine ⟨by omega, ?_⟩
            intro g hg
            obtain ⟨g1, rfl⟩ : ∃ g1, g = g1 + 1 := ⟨g - 1, by omega⟩
            have hV1 := hfuelV g1 (by omega)
            simp [parseMembers, hV1]
          · simp at h
      · simp at h

/-- Parser budget: a value that some budget yields is the value that
`JSON.parse` yields with its own budget, so `none` is a syntax error and never
an exhausted budget. -/
theorem parseValue_fuel (f : Nat) (toks : List Token) (v : JsVal) (rest : List Token)
    (h : parseValue f toks = some (v, rest)) :
    parseValue (2 * toks.length + 1) toks = some (v, rest) := by
  obtain ⟨hlen, hfuel⟩ := (parse_fuel_aux f).1 toks v rest h
  exact hfuel _ (by omega)

/-- The budgets of `JSON.parse` are sufficient: when some budget that covers the
text yields tokens, and some budget parses them to a value with nothing left,
`JSON.parse` yields that value. -/
theorem JSON.parse_of_budgets (text : List Char) (toks : List Token) (f g : Nat) (v : JsVal)
    (hf : text.length ≤ f) (hlex : lex f text = some toks)
    (hparse : parseValue g toks = some (v, [])) : JSON.parse text = some v := by
  have h1 : lex text.length text = some toks := by
    rw [← hlex]
    exact lex_fuel _ _ text (Nat.le_refl _) hf
  have h2 := parseValue_fuel g toks v [] hparse
  simp [JSON.parse, h1, h2]

/-! ## An array that is not closed does not parse -/

theorem parse_suffix_aux (f : Nat) :
    (∀ toks v rest, parseValue f toks = some (v, rest) → rest <:+ toks) ∧
    (∀ toks vs rest, parseElements f toks = some (vs, rest) →
      rest <:+ toks ∧ Token.rbracket ∈ toks) ∧
    (∀ toks ms rest, parseMembers f toks = some (ms, rest) → rest <:+ toks) := by
  induction f with
  | zero =>
    refine ⟨?_, ?_, ?_⟩ <;> intro toks v rest h
    · simp [parseValue] at h
    · simp [parseElements] at h
    · simp [parseMembers] at h
  | succ f ih =>
    obtain ⟨ihV, ihE, ihM⟩ := ih
    refine ⟨?_, ?_, ?_⟩
    · intro toks v rest h
      unfold parseValue at h
      split at h
      · cases h; exact List.suffix_cons _ _
      · cases h; exact List.suffix_cons _ _
      · cases h; exact List.suffix_cons _ _
      · cases h; exact List.suffix_cons _ _
      · cases h; exact List.suffix_cons _ _
      · cases h
        exact (List.suffix_cons _ _).trans (List.suffix_cons _ _)
      · rename_i r hno
        cases hE : parseElements f r with
        | none => simp [hE] at h
        | some p =>
          obtain ⟨items, r1⟩ := p
          simp only [hE, Option.some.injEq, Prod.mk.injEq] at h
          obtain ⟨hv, hr⟩ := h
          subst hv hr
          exact (ihE r items r1 hE).1.trans (List.suffix_cons _ _)
      · cases h
        exact (List.suffix_cons _ _).trans (List.suffix_cons _ _)
      · rename_i r hno
        cases hM : parseMembers f r with
        | none => simp [hM] at h
        | some p =>
          obtain ⟨members, r1⟩ := p
          simp only [hM, Option.some.injEq, Prod.mk.injEq] at h
          obtain ⟨hv, hr⟩ := h
          subst hv hr
          exact (ihM r members r1 hM).trans (List.suffix_cons _ _)
      · simp at h
    · intro toks vs rest h
      unfold parseElements at h
      cases hV : parseValue f toks with
      | none => simp [hV] at h
      | some p =>
        obtain ⟨v, r⟩ := p
        have hsuf := ihV toks v r hV
        rw [hV] at h
        split at h
        · simp at h
        · rename_i v1 r1 heq
          simp only [Option.some.injEq, Prod.mk.injEq] at heq
          obtain ⟨hv, hr⟩ := heq
          subst hv hr
          cases hE : parseElements f r1 with
          | none => simp [hE] at h
          | some q =>
            obtain ⟨items, r2⟩ := q
            simp only [hE, Option.some.injEq, Prod.mk.injEq] at h
            obtain ⟨hvs, hrest⟩ := h
            subst hvs hrest
            obtain ⟨hs2, hmem⟩ := ihE r1 items r2 hE
            have hs1 : r1 <:+ toks := (List.suffix_cons _ _).trans hsuf
            exact ⟨hs2.trans hs1, hs1.subset hmem⟩
        · rename_i v1 r1 heq
          simp only [Option.some.injEq, Prod.mk.injEq] at heq
          obtain ⟨hv, hr⟩ := heq
          subst hv hr
          simp only [Option.some.injEq, Prod.mk.injEq] at h
          obtain ⟨hvs, hrest⟩ := h
          subst hvs hrest
          exact ⟨(List.suffix_cons _ _).trans hsuf, hsuf.subset (List.mem_cons_self _ _)⟩
        · simp at h
    · intro toks ms rest h
      unfold parseMembers at h
      split at h
      · rename_i key r
        cases hV : parseValue f r with
        | none => simp [hV] at h
        | some p =>
          obtain ⟨v, r0⟩ := p
          have hsuf := ihV r v r0 hV
          have hr : r <:+ Token.str key :: Token.colon :: r :=
            (List.suffix_cons _ _).trans (List.suffix_cons _ _)
          rw [hV] at h
          split at h
          · simp at h
          · rename_i v1 r1 heq
            simp only [Option.some.injEq, Prod.mk.injEq] at heq
            obtain ⟨hv, hr0⟩ := heq
            subst hv hr0
            cases hM : parseMembers f r1 with
            | none => simp [hM] at h
            | some q =>
              obtain ⟨members, r2⟩ := q
              simp only [hM, Option.some.injEq, Prod.mk.injEq] at h
              obtain ⟨hms, hrest⟩ := h
              subst hms hrest
              exact ((ihM r1 members r2 hM).trans ((List.suffix_cons _ _).trans hsuf)).trans hr
          · rename_i v1 r1 heq
            simp only [Option.some.injEq, Prod.mk.injEq] at heq
            obtain ⟨hv, hr0⟩ := heq
            subst hv hr0
            simp only [Option.some.injEq, Prod.mk.injEq] at h
            obtain ⟨hms, hrest⟩ := h
            subst hms hrest
            exact ((List.suffix_cons _ _).trans hsuf).trans hr
          · simp at h
      · simp at h

/-- An array that parses has its closing bracket among the tokens. -/
theorem parseValue_closing (f : Nat) (ts : List Token) (v : JsVal) (rest : List Token)
    (h : parseValue f (.lbracket :: ts) = some (v, rest)) : Token.rbracket ∈ ts := by
  cases f with
  | zero => simp [parseValue] at h
  | succ f =>
    unfold parseValue at h
    split at h
    all_goals first
      | (rename_i heq; cases heq; done)
      | skip
    · rename_i heq
      cases heq
      exact List.mem_cons_self _ _
    · rename_i r hno heq
      cases heq
      cases hE : parseElements f ts with
      | none => simp [hE] at h
      | some p => exact ((parse_suffix_aux f).2.1 ts p.1 p.2 hE).2
    · simp at h

/-! ## A text cut short inside the array yields no closing bracket -/

theorem cut_nil (written torn : Nat) :
    cut [] written torn = List.replicate torn (Char.ofNat 65533) := by
  simp [cut]

theorem cut_zero (cs : List Char) (torn : Nat) :
    cut cs 0 torn = List.replicate torn (Char.ofNat 65533) := by
  simp [cut]

theorem cut_cons (c : Char) (cs : List Char) (written torn : Nat) :
    cut (c :: cs) (written + 1) torn = c :: cut cs written torn := by
  simp [cut]

theorem cut_append_ge (xs ys : List Char) (written torn : Nat) (h : xs.length ≤ written) :
    cut (xs ++ ys) written torn = xs ++ cut ys (written - xs.length) torn := by
  simp only [cut, List.take_append_eq_append_take, List.take_of_length_le h, List.append_assoc]

theorem cut_append_lt (xs ys : List Char) (written torn : Nat) (h : written ≤ xs.length) :
    cut (xs ++ ys) written torn = cut xs written torn := by
  simp only [cut, List.take_append_of_le_length h]

theorem lexStep_replacement (cs : List Char) : lexStep (Char.ofNat 65533) cs = none := by
  simp [lexStep, isWhitespace, isDigit]

theorem lex_replacement (fuel torn : Nat) (ts : List Token)
    (h : lex fuel (List.replicate torn (Char.ofNat 65533)) = some ts) : ts = [] := by
  cases torn with
  | zero =>
    cases fuel <;> simp [lex] at h <;> exact h
  | succ n =>
    cases fuel with
    | zero => simp [List.replicate_succ, lex] at h
    | succ f => simp [List.replicate_succ, lex, lexStep_replacement] at h

theorem lexStringStep_replacement (cs : List Char) :
    lexStringStep (Char.ofNat 65533 :: cs) = some (some [65533], cs) := by
  simp [lexStringStep, utf16Char]
  decide

theorem lexString_replacement (fuel torn : Nat) :
    lexString fuel (List.replicate torn (Char.ofNat 65533)) = none := by
  induction fuel generalizing torn with
  | zero => rfl
  | succ f ih =>
    cases torn with
    | zero => simp [lexString, lexStringStep]
    | succ n =>
      simp only [List.replicate_succ, lexString, lexStringStep_replacement, ih n]
      rfl

theorem noClosing_nil : NoClosing [] := by
  intro written torn fuel ts h
  rw [cut_nil] at h
  rw [lex_replacement fuel torn ts h]
  simp

theorem noClosing_of_zero (cs : List Char) (torn fuel : Nat) (ts : List Token)
    (h : lex fuel (cut cs 0 torn) = some ts) : Token.rbracket ∉ ts := by
  rw [cut_zero] at h
  rw [lex_replacement fuel torn ts h]
  simp

theorem noClosing_skip (c : Char) (cs : List Char) (hc : isWhitespace c = true)
    (h : NoClosing cs) : NoClosing (c :: cs) := by
  intro written torn fuel ts hlex
  cases written with
  | zero => exact noClosing_of_zero _ torn fuel ts hlex
  | succ w =>
    rw [cut_cons] at hlex
    cases fuel with
    | zero => simp [lex] at hlex
    | succ f =>
      simp only [lex, lexStep, hc, if_true] at hlex
      exact h w torn f ts hlex

theorem noClosing_token (c : Char) (t : Token) (cs : List Char) (ht : t ≠ .rbracket)
    (hstep : ∀ rest, lexStep c rest = some (some t, rest)) (h : NoClosing cs) :
    NoClosing (c :: cs) := by
  intro written torn fuel ts hlex
  cases written with
  | zero => exact noClosing_of_zero _ torn fuel ts hlex
  | succ w =>
    rw [cut_cons] at hlex
    cases fuel with
    | zero => simp [lex] at hlex
    | succ f =>
      simp only [lex, hstep] at hlex
      cases hrec : lex f (cut cs w torn) with
      | none => simp [hrec, consToken] at hlex
      | some ts1 =>
        simp only [hrec, consToken, Option.map_some', Option.some.injEq] at hlex
        rw [← hlex]
        have := h w torn f ts1 hrec
        simp only [List.mem_cons, not_or]
        exact ⟨fun heq => ht heq.symm, this⟩

theorem noClosing_indentation (depth : Nat) (cs : List Char) (h : NoClosing cs) :
    NoClosing (indentation depth ++ cs) := by
  unfold indentation
  induction 2 * depth with
  | zero => simpa using h
  | succ n ih =>
    simp only [List.replicate_succ, List.cons_append]
    exact noClosing_skip _ _ (by decide) ih

theorem lexString_of_step_none (fuel : Nat) (cs : List Char) (h : lexStringStep cs = none) :
    lexString fuel cs = none := by
  cases fuel with
  | zero => rfl
  | succ f => simp [lexString, h]

theorem hexVal_replacement : hexVal (Char.ofNat 65533) = none := by decide

theorem lexStringStep_escape_cut (torn : Nat) :
    lexStringStep ('\\' :: List.replicate torn (Char.ofNat 65533)) = none := by
  cases torn with
  | zero => simp [lexStringStep]
  | succ n =>
    simp only [List.replicate_succ, lexStringStep]
    rw [if_pos trivial, if_neg (by decide)]
    rfl

theorem lexStringStep_unicode_cut (k torn : Nat) (d1 d2 d3 d4 : Char) (hk : k ≤ 3) :
    lexStringStep ('\\' :: 'u' ::
      (List.take k [d1, d2, d3, d4] ++ List.replicate torn (Char.ofNat 65533))) = none := by
  have h4 : ∀ a b c, hex4 a b c (Char.ofNat 65533) = none := by
    intro a b c
    unfold hex4
    rw [hexVal_replacement]
    cases hexVal a <;> cases hexVal b <;> cases hexVal c <;> rfl
  have h3 : ∀ a b d, hex4 a b (Char.ofNat 65533) d = none := by
    intro a b d
    unfold hex4
    rw [hexVal_replacement]
    cases hexVal a <;> cases hexVal b <;> cases hexVal d <;> rfl
  have h2 : ∀ a c d, hex4 a (Char.ofNat 65533) c d = none := by
    intro a c d
    unfold hex4
    rw [hexVal_replacement]
    cases hexVal a <;> cases hexVal c <;> cases hexVal d <;> rfl
  have h1 : ∀ b c d, hex4 (Char.ofNat 65533) b c d = none := by
    intro b c d
    unfold hex4
    rw [hexVal_replacement]
  have hk4 : k = 0 ∨ k = 1 ∨ k = 2 ∨ k = 3 := by omega
  rcases hk4 with rfl | rfl | rfl | rfl <;>
    rcases torn with _ | _ | _ | _ | torn <;>
    simp [lexStringStep, List.replicate_succ, h1, h2, h3, h4]

/-- A text cut inside the escape of one code unit does not close its string. -/
theorem lexString_quoteUnit_cut (u : CodeUnit) (written torn fuel : Nat)
    (hw : written < (quoteUnit u).length) :
    lexString fuel (cut (quoteUnit u) written torn) = none := by
  cases written with
  | zero => rw [cut_zero]; exact lexString_replacement fuel torn
  | succ w =>
    apply lexString_of_step_none
    revert hw
    unfold quoteUnit
    split_ifs with h1 h2 h3 h4 h5 h6 h7 h8
    all_goals intro hw
    all_goals try (simp only [List.length_cons, List.length_nil] at hw
                   have hw0 : w = 0 := by omega
                   subst hw0
                   simp only [cut, List.take_succ_cons, List.take_zero, List.cons_append,
                     List.nil_append]
                   exact lexStringStep_escape_cut torn)
    · simp only [unicodeEscape, List.length_cons, List.length_nil] at hw
      cases w with
      | zero =>
        simp only [cut, unicodeEscape, List.take_succ_cons, List.take_zero, List.cons_append,
          List.nil_append]
        exact lexStringStep_escape_cut torn
      | succ k =>
        simp only [cut, unicodeEscape, List.take_succ_cons, List.cons_append]
        exact lexStringStep_unicode_cut k torn _ _ _ _ (by omega)
    · simp at hw

theorem consUnits_some (us : List CodeUnit) (r : Option (JsString × List Char))
    (s : JsString) (rest : List Char) (h : consUnits us r = some (s, rest)) :
    ∃ s1, r = some (s1, rest) := by
  cases r with
  | none => simp [consUnits] at h
  | some p =>
    obtain ⟨a, b⟩ := p
    simp only [consUnits, Option.map_some', Option.some.injEq, Prod.mk.injEq] at h
    exact ⟨a, by rw [h.2]⟩

theorem lexString_cut_unit (u : CodeUnit) (tail : List Char) (torn fuel written : Nat)
    (s : JsString) (rest : List Char)
    (h : lexString fuel (cut (quoteUnit u ++ tail) written torn) = some (s, rest)) :
    ∃ f w s1, lexString f (cut tail w torn) = some (s1, rest) := by
  by_cases hw : written < (quoteUnit u).length
  · rw [cut_append_lt _ _ _ _ (Nat.le_of_lt hw), lexString_quoteUnit_cut u written torn fuel hw] at h
    cases h
  · rw [cut_append_ge _ _ _ _ (Nat.le_of_not_lt hw)] at h
    cases fuel with
    | zero => simp [lexString] at h
    | succ f =>
      rw [lexString, lexStringStep_quoteUnit] at h
      obtain ⟨s1, hs1⟩ := consUnits_some _ _ _ _ h
      exact ⟨f, _, s1, hs1⟩

theorem lexString_cut_closing (cs : List Char) (torn fuel written : Nat)
    (s : JsString) (rest : List Char)
    (h : lexString fuel (cut ('"' :: cs) written torn) = some (s, rest)) :
    ∃ w, rest = cut cs w torn := by
  cases written with
  | zero => rw [cut_zero, lexString_replacement] at h; cases h
  | succ w =>
    rw [cut_cons] at h
    cases fuel with
    | zero => simp [lexString] at h
    | succ f =>
      rw [lexString, lexStringStep_quote] at h
      simp only [Option.some.injEq, Prod.mk.injEq] at h
      exact ⟨w, h.2.symm⟩

theorem lexString_cut_quoted_aux (cs : List Char) (torn : Nat) (n : Nat) :
    ∀ (us : JsString) (fuel written : Nat) (s : JsString) (rest : List Char),
      us.length ≤ n →
      lexString fuel (cut (quoteUnits us ++ '"' :: cs) written torn) = some (s, rest) →
      ∃ w, rest = cut cs w torn := by
  induction n using Nat.strong_induction_on with
  | _ n ih =>
    intro us fuel written s rest hn h
    match us, hn with
    | [], _ =>
      exact lexString_cut_closing cs torn fuel written s rest h
    | [u], hn =>
      have hq : quoteUnits [u] = quoteUnit u := rfl
      rw [hq] at h
      obtain ⟨f, w, s1, h1⟩ := lexString_cut_unit u _ torn fuel written s rest h
      exact lexString_cut_closing cs torn f w s1 rest h1
    | hi :: lo :: tl, hn =>
      simp only [List.length_cons] at hn
      by_cases hpair : 55296 ≤ hi.val ∧ hi.val ≤ 56319 ∧ 56320 ≤ lo.val ∧ lo.val ≤ 57343
      · rw [quoteUnits_pair hi lo tl hpair, List.cons_append] at h
        cases written with
        | zero => rw [cut_zero, lexString_replacement] at h; cases h
        | succ w =>
          rw [cut_cons] at h
          cases fuel with
          | zero => simp [lexString] at h
          | succ f =>
            rw [lexString, lexStringStep_pair hi lo _ hpair] at h
            obtain ⟨s1, hs1⟩ := consUnits_some _ _ _ _ h
            exact ih tl.length (by omega) tl f w s1 rest (Nat.le_refl _) hs1
      · rw [quoteUnits_single hi lo tl hpair, List.append_assoc] at h
        obtain ⟨f, w, s1, h1⟩ := lexString_cut_unit hi _ torn fuel written s rest h
        exact ih (tl.length + 1) (by omega) (lo :: tl) f w s1 rest (by simp) h1

theorem lexStep_quote_eq (cs : List Char) :
    lexStep '"' cs =
      match lexString cs.length cs with
      | none => none
      | some (s, rest) => some (some (.str s), rest) := by
  unfold lexStep
  rw [if_neg (by decide), if_neg (by decide), if_neg (by decide), if_neg (by decide),
    if_neg (by decide), if_neg (by decide), if_neg (by decide), if_pos rfl]

theorem noClosing_quote (s : JsString) (cs : List Char) (h : NoClosing cs) :
    NoClosing (quote s ++ cs) := by
  intro written torn fuel ts hlex
  cases written with
  | zero => exact noClosing_of_zero _ torn fuel ts hlex
  | succ w =>
    have hq : quote s ++ cs = '"' :: (quoteUnits s ++ '"' :: cs) := by
      simp [quote]
    rw [hq, cut_cons] at hlex
    cases fuel with
    | zero => simp [lex] at hlex
    | succ f =>
      rw [lex, lexStep_quote_eq] at hlex
      cases hs : lexString (cut (quoteUnits s ++ '"' :: cs) w torn).length
          (cut (quoteUnits s ++ '"' :: cs) w torn) with
      | none => rw [hs] at hlex; cases hlex
      | some q =>
        obtain ⟨str, rest1⟩ := q
        obtain ⟨w1, hw1⟩ := lexString_cut_quoted_aux cs torn s.length s _ w str rest1
          (Nat.le_refl _) hs
        rw [hs] at hlex
        dsimp only at hlex
        rw [hw1] at hlex
        cases hrec : lex f (cut cs w1 torn) with
        | none => simp [hrec, consToken] at hlex
        | some ts1 =>
          simp only [hrec, consToken, Option.map_some', Option.some.injEq] at hlex
          rw [← hlex]
          have := h w1 torn f ts1 hrec
          simpa using this

theorem noClosing_userText (u : User) (cs : List Char) (h : NoClosing cs) :
    NoClosing (userText u ++ cs) := by
  simp only [userText, wrap, joinLines, List.append_assoc, List.cons_append,
    List.nil_append]
  apply noClosing_token _ .lbrace _ (by simp) (fun rest => by simp [lexStep, isWhitespace])
  apply noClosing_skip _ _ (by decide)
  apply noClosing_indentation
  apply noClosing_quote
  apply noClosing_token _ .colon _ (by simp) (fun rest => by simp [lexStep, isWhitespace])
  apply noClosing_skip _ _ (by decide)
  apply noClosing_quote
  apply noClosing_token _ .comma _ (by simp) (fun rest => by simp [lexStep, isWhitespace])
  apply noClosing_skip _ _ (by decide)
  apply noClosing_indentation
  apply noClosing_quote
  apply noClosing_token _ .colon _ (by simp) (fun rest => by simp [lexStep, isWhitespace])
  apply noClosing_skip _ _ (by decide)
  apply noClosing_quote
  apply noClosing_token _ .comma _ (by simp) (fun rest => by simp [lexStep, isWhitespace])
  apply noClosing_skip _ _ (by decide)
  apply noClosing_indentation
  apply noClosing_quote
  apply noClosing_token _ .colon _ (by simp) (fun rest => by simp [lexStep, isWhitespace])
  apply noClosing_skip _ _ (by decide)
  apply noClosing_quote
  apply noClosing_skip _ _ (by decide)
  apply noClosing_indentation
  apply noClosing_token _ .rbrace _ (by simp) (fun rest => by simp [lexStep, isWhitespace])
  exact h

theorem noClosing_items (u : User) (us : List User) (cs : List Char) (h : NoClosing cs) :
    NoClosing (joinLines 1 ((u :: us).map userText) ++ cs) := by
  induction us generalizing u with
  | nil => simpa [joinLines] using noClosing_userText u cs h
  | cons v vs ih =>
    simp only [List.map, joinLines, List.append_assoc, List.cons_append]
    apply noClosing_userText
    apply noClosing_token _ .comma _ (by simp) (fun rest => by simp [lexStep, isWhitespace])
    apply noClosing_skip _ _ (by decide)
    apply noClosing_indentation
    exact ih v

theorem store_text_body (u : User) (us : List User) :
    wrap '[' ']' 0 ((u :: us).map userText) = storeBody u us ++ [']'] := by
  simp [wrap, storeBody, indentation]

theorem noClosing_storeBody (u : User) (us : List User) : NoClosing (storeBody u us) := by
  unfold storeBody
  apply noClosing_token _ .lbracket _ (by simp) (fun rest => by simp [lexStep, isWhitespace])
  apply noClosing_skip _ _ (by decide)
  apply noClosing_indentation
  apply noClosing_items u us
  apply noClosing_skip _ _ (by decide)
  apply noClosing_indentation
  exact noClosing_nil

/-- A store text cut short before its end is not JSON. -/
theorem parse_cut_store (u : User) (us : List User) (written torn : Nat)
    (hw : written < (wrap '[' ']' 0 ((u :: us).map userText)).length) :
    JSON.parse (cut (wrap '[' ']' 0 ((u :: us).map userText)) written torn) = none := by
  rw [store_text_body] at hw ⊢
  have hle : written ≤ (storeBody u us).length := by
    simp only [List.length_append, List.length_cons, List.length_nil] at hw
    omega
  rw [cut_append_lt _ _ _ _ hle]
  unfold JSON.parse
  cases hlex : lex (cut (storeBody u us) written torn).length (cut (storeBody u us) written torn) with
  | none => rfl
  | some ts =>
    have hno := noClosing_storeBody u us written torn _ ts hlex
    dsimp only
    cases hp : parseValue (2 * ts.length + 1) ts with
    | none => rfl
    | some r =>
      obtain ⟨v, rest⟩ := r
      exfalso
      cases written with
      | zero =>
        rw [cut_zero] at hlex
        have := lex_replacement _ _ _ hlex
        subst this
        simp [parseValue] at hp
      | succ w =>
        have hb : storeBody u us = '[' :: (storeBody u us).tail := rfl
        rw [hb, cut_cons] at hlex
        cases hf : (cut ('[' :: (storeBody u us).tail) (w + 1) torn).length with
        | zero => rw [cut_cons] at hf; simp at hf
        | succ f =>
          rw [cut_cons] at hf
          rw [hf, lex] at hlex
          have hs : lexStep '[' (cut (storeBody u us).tail w torn) =
              some (some .lbracket, cut (storeBody u us).tail w torn) := by
            simp [lexStep, isWhitespace]
          rw [hs] at hlex
          cases hrec : lex f (cut (storeBody u us).tail w torn) with
          | none => simp [hrec, consToken] at hlex
          | some ts1 =>
            simp only [hrec, consToken, Option.map_some', Option.some.injEq] at hlex
            subst hlex
            have hin := parseValue_closing _ _ _ _ hp
            exact hno (List.mem_cons_of_mem _ hin)

/-! ## The file helpers on a store -/

theorem read_content_store (users : List User) :
    readUsersFromFile (.content (wrap '[' ']' 0 (users.map userText))) = storeOf users := by
  simp [readUsersFromFile, readFileSync, parse_store_text]

theorem read_fileOf (users : List User) : readUsersFromFile (fileOf users) = storeOf users := by
  simp [fileOf, stringify_store, read_content_store]

theorem write_store_of_writable (env : Env) (file : FileState) (users : List User)
    (hw : writable env file = true) :
    writeUsersToFile env file (storeOf users) = fileOf users := by
  unfold writable writeFileSync at hw
  unfold writeUsersToFile fileOf writeFileSync
  rw [stringify_store]
  cases hout : env.write <;> cases file <;> simp_all

/-- A text cut short as a write that throws leaves it, before its end. -/
theorem read_cut_store (users : List User) (hne : users ≠ []) (written torn : Nat)
    (hw : written < (wrap '[' ']' 0 (users.map userText)).length) :
    readUsersFromFile (.content (cut (wrap '[' ']' 0 (users.map userText)) written torn)) =
      .arr [] := by
  cases users with
  | nil => exact absurd rfl hne
  | cons u us =>
    have h := parse_cut_store u us written torn hw
    unfold readUsersFromFile readFileSync
    dsimp only
    rw [h]
    rfl

/-- After `writeUsersToFile` of a non-empty store, whether the write goes through
or not: the file is as it was, or it reads as the store written, or it reads as
the empty store. -/
theorem write_store_cases (env : Env) (file : FileState) (users : List User)
    (hne : users ≠ []) :
    writeUsersToFile env file (storeOf users) = file ∨
      readUsersFromFile (writeUsersToFile env file (storeOf users)) = storeOf users ∨
      readUsersFromFile (writeUsersToFile env file (storeOf users)) = storeOf [] := by
  have hcontent : ∀ written torn,
      readUsersFromFile (.content
        (if written < (wrap '[' ']' 0 (users.map userText)).length then
          cut (wrap '[' ']' 0 (users.map userText)) written torn
        else wrap '[' ']' 0 (users.map userText))) = storeOf users ∨
      readUsersFromFile (.content
        (if written < (wrap '[' ']' 0 (users.map userText)).length then
          cut (wrap '[' ']' 0 (users.map userText)) written torn
        else wrap '[' ']' 0 (users.map userText))) = storeOf [] := by
    intro written torn
    by_cases hw : written < (wrap '[' ']' 0 (users.map userText)).length
    · rw [if_pos hw]
      exact Or.inr (read_cut_store users hne written torn hw)
    · rw [if_neg hw]
      exact Or.inl (read_content_store users)
  unfold writeUsersToFile writeFileSync
  rw [stringify_store]
  cases file with
  | unreadable => exact Or.inl rfl
  | absent =>
    cases hout : env.write with
    | completes => exact Or.inr (Or.inl (read_content_store users))
    | refused => exact Or.inl rfl
    | interrupted written torn => exact Or.inr (hcontent written torn)
  | content text =>
    cases hout : env.write with
    | completes => exact Or.inr (Or.inl (read_content_store users))
    | refused => exact Or.inl rfl
    | interrupted written torn => exact Or.inr (hcontent written torn)

/-! ## The scans of the handlers on a store -/

theorem truthy_str (s : JsString) (h : s ≠ []) : truthy (.str s) = true := by
  simp [truthy, h]

theorem template_str (s : JsString) : template (.str s) = .ok () := by
  simp [template, toStringThrows]

theorem emailCallback_toJs (e : JsString) (u : User) :
    ((getField u.toJs (utf16 "email")).map fun x => strictEq x (.str e)) =
      .ok (decide (u.email = e)) := by
  rfl

theorem credentialsMatch_toJs (e p : JsString) (u : User) :
    credentialsMatch (.str e) (.str p) u.toJs = .ok (decide (u.email = e ∧ u.password = p)) := by
  have h0 : getField u.toJs (utf16 "email") = .ok (.str u.email) := rfl
  have h1 : getField u.toJs (utf16 "password") = .ok (.str u.password) := rfl
  unfold credentialsMatch
  rw [h0, h1]
  by_cases h1 : u.email = e
  · by_cases h2 : u.password = p
    · simp [strictEq, h1, h2, Except.map]
    · simp [strictEq, h1, h2, Except.map]
  · simp [strictEq, h1]

theorem findIn_users (pred : JsVal → Except JsError Bool) (q : User → Bool)
    (hpred : ∀ u : User, pred u.toJs = .ok (q u)) (users : List User) :
    findIn pred (users.map User.toJs) =
      .ok (match users.find? q with
        | some u => u.toJs
        | none => .undefined) := by
  induction users with
  | nil => rfl
  | cons u us ih =>
    simp only [List.map, findIn, hpred u, List.find?]
    cases q u
    · simpa using ih
    · rfl

theorem any_of_find? (q : User → Bool) (users : List User) :
    users.any q = (users.find? q).isSome := by
  induction users with
  | nil => rfl
  | cons u us ih =>
    simp only [List.any, List.find?]
    cases q u
    · simpa using ih
    · rfl

theorem signup_on_store (env : Env) (file : FileState) (users : List User) (e p : JsString)
    (hstore : readUsersFromFile file = storeOf users) (he : e ≠ []) (hp : p ≠ []) :
    signup env file ⟨.str e, .str p⟩ =
      if users.any (fun u => decide (u.email = e)) = true then
        (.ok ⟨409, "Email already registered."⟩, file)
      else
        (.ok ⟨200, "Signup successful!"⟩,
          writeUsersToFile env file (storeOf (users ++ [User.mk e p env.now]))) := by
  unfold signup
  simp only [truthy_str e he, truthy_str p hp, hstore, storeOf, JsVal.find, template_str]
  rw [findIn_users _ (fun u => decide (u.email = e)) (emailCallback_toJs e) users,
    any_of_find?]
  cases users.find? (fun u => decide (u.email = e)) with
  | none => simp [truthy, JsVal.push, User.toJs]
  | some u => simp [truthy, User.toJs]

theorem login_on_store (file : FileState) (users : List User) (e p : JsString)
    (hstore : readUsersFromFile file = storeOf users) (he : e ≠ []) (hp : p ≠ []) :
    login file ⟨.str e, .str p⟩ =
      if users.any (fun u => decide (u.email = e ∧ u.password = p)) = true then
        (.ok ⟨200, "Login successful!"⟩, file)
      else (.ok ⟨401, "Invalid credentials."⟩, file) := by
  unfold login
  simp only [truthy_str e he, truthy_str p hp, hstore, storeOf, JsVal.find, template_str]
  rw [findIn_users _ (fun u => decide (u.email = e ∧ u.password = p))
    (credentialsMatch_toJs e p) users, any_of_find?]
  cases users.find? (fun u => decide (u.email = e ∧ u.password = p)) with
  | none => simp [truthy]
  | some u => simp [truthy, User.toJs]

theorem rejected_of_falsy (env : Env) (file : FileState) (body : Body)
    (h : truthy body.email = false ∨ truthy body.password = false) :
    signup env file body = (.ok ⟨400, "Email and password are required."⟩, file) ∧
      login file body = (.ok ⟨400, "Email and password are required."⟩, file) := by
  unfold signup login
  rcases h with h | h <;> simp [h]

/-! ## Further facts used by the claims -/

theorem login_keeps_file (file : FileState) (body : Body) : (login file body).2 = file := by
  unfold login
  dsimp only
  split
  · rfl
  · split
    · rfl
    · split
      · split <;> rfl
      · split <;> rfl

theorem storeOf_injective (a b : List User) (h : storeOf a = storeOf b) : a = b := by
  have hinj : Function.Injective User.toJs := by
    intro x y hxy
    cases x
    cases y
    simp only [User.toJs, JsVal.obj.injEq, List.cons.injEq, Prod.mk.injEq, JsVal.str.injEq,
      true_and, and_true] at hxy
    obtain ⟨h1, h2, h3⟩ := hxy
    subst h1 h2 h3
    rfl
  simp only [storeOf, JsVal.arr.injEq] at h
  exact List.map_injective_iff.mpr hinj h

theorem emailsOf_store (users : List User) :
    emailsOf (storeOf users) = (users.map User.email).map JsVal.str := by
  simp [emailsOf, storeOf, emailOf, User.toJs, lookup]

theorem distinctEmails_store (users : List User) :
    distinctEmails (storeOf users) ↔ (users.map User.email).Nodup := by
  unfold distinctEmails
  rw [emailsOf_store]
  refine List.nodup_map_iff ?_
  intro a b hab
  exact JsVal.str.inj hab

theorem any_email_iff (users : List User) (e : JsString) :
    users.any (fun u => decide (u.email = e)) = true ↔ ∃ u ∈ users, u.email = e := by
  simp [List.any_eq_true]

theorem step_keeps_store (env : Env) (file : FileState) (users : List User) (req : Request)
    (hmail : stringOrAbsent req.body.email = true)
    (hpass : stringOrAbsent req.body.password = true)
    (hstore : readUsersFromFile file = storeOf users) (hnd : (users.map User.email).Nodup) :
    ∃ users1, readUsersFromFile (handle env file req).2 = storeOf users1 ∧
      (users1.map User.email).Nodup := by
  cases req with
  | login body => exact ⟨users, by simpa [handle, login_keeps_file] using hstore, hnd⟩
  | signup body =>
    obtain ⟨email, password⟩ := body
    simp only [Request.body] at hmail hpass
    simp only [handle]
    by_cases hf : truthy email = false ∨ truthy password = false
    · rw [(rejected_of_falsy env file ⟨email, password⟩ hf).1]
      exact ⟨users, hstore, hnd⟩
    · have he : truthy email = true := by
        cases h : truthy email
        · exact absurd (Or.inl h) hf
        · rfl
      have hp : truthy password = true := by
        cases h : truthy password
        · exact absurd (Or.inr h) hf
        · rfl
      obtain ⟨e, rfl⟩ : ∃ e, email = .str e := by
        cases email <;> simp_all [stringOrAbsent, truthy]
      obtain ⟨p, rfl⟩ : ∃ p, password = .str p := by
        cases password <;> simp_all [stringOrAbsent, truthy]
      have he1 : e ≠ [] := by simpa [truthy] using he
      have hp1 : p ≠ [] := by simpa [truthy] using hp
      rw [signup_on_store env file users e p hstore he1 hp1]
      split
      · exact ⟨users, hstore, hnd⟩
      · rename_i hany
        dsimp only
        rcases write_store_cases env file (users ++ [User.mk e p env.now]) (by simp) with
          h | h | h
        · rw [h]
          exact ⟨users, hstore, hnd⟩
        · refine ⟨users ++ [User.mk e p env.now], h, ?_⟩
          rw [any_email_iff] at hany
          simp only [List.map_append, List.map_cons, List.map_nil]
          refine List.Nodup.append hnd (List.nodup_singleton _) ?_
          simp only [List.disjoint_singleton, List.mem_map, not_exists, not_and]
          intro u hu hue
          exact hany ⟨u, hu, hue⟩
        · exact ⟨[], h, by simp⟩

theorem run_keeps_store (reqs : List (Env × Request))
    (hreqs : ∀ r ∈ reqs,
      stringOrAbsent r.2.body.email = true ∧ stringOrAbsent r.2.body.password = true)
    (file : FileState) (users : List User)
    (hstore : readUsersFromFile file = storeOf users) (hnd : (users.map User.email).Nodup) :
    ∃ users1, readUsersFromFile (run file reqs) = storeOf users1 ∧
      (users1.map User.email).Nodup := by
  induction reqs generalizing file users with
  | nil => exact ⟨users, hstore, hnd⟩
  | cons r rest ih =>
    obtain ⟨env, req⟩ := r
    have hr := hreqs (env, req) (List.mem_cons_self _ _)
    obtain ⟨users1, h1, h2⟩ := step_keeps_store env file users req hr.1 hr.2 hstore hnd
    exact ih (fun r hr => hreqs r (List.mem_cons_of_mem _ hr)) _ users1 h1 h2

theorem findIn_total (pred : JsVal → Except JsError Bool) (items : List JsVal)
    (h : ∀ x ∈ items, ∃ b, pred x = .ok b) : ∃ v, findIn pred items = .ok v := by
  induction items with
  | nil => exact ⟨_, rfl⟩
  | cons x xs ih =>
    obtain ⟨b, hb⟩ := h x (List.mem_cons_self _ _)
    cases b
    · simpa [findIn, hb] using ih (fun y hy => h y (List.mem_cons_of_mem _ hy))
    · exact ⟨x, by simp [findIn, hb]⟩

theorem getField_total (x : JsVal) (key : JsString) (h1 : x ≠ .null) (h2 : x ≠ .undefined) :
    ∃ v, getField x key = .ok v := by
  cases x <;> simp [getField] at *

theorem template_of_stringOrAbsent (v : JsVal) (h : stringOrAbsent v = true) :
    template v = .ok () := by
  cases v <;> simp_all [stringOrAbsent, template, toStringThrows]

theorem signup_answers (env : Env) (file : FileState) (body : Body) (items : List JsVal)
    (hread : readUsersFromFile file = .arr items)
    (hitems : ∀ x ∈ items, x ≠ .null ∧ x ≠ .undefined)
    (hmail : stringOrAbsent body.email = true) :
    httpStatus (signup env file body).1 ∈ [200, 400, 401, 409] := by
  unfold signup
  dsimp only
  split
  · simp [httpStatus]
  · rw [hread]
    obtain ⟨v, hv⟩ := findIn_total
      (fun user => (getField user (utf16 "email")).map fun e => strictEq e body.email) items (by
        intro x hx
        obtain ⟨w, hw⟩ := getField_total x (utf16 "email") (hitems x hx).1 (hitems x hx).2
        refine ⟨strictEq w body.email, ?_⟩
        show Except.map _ (getField x (utf16 "email")) = _
        rw [hw]
        rfl)
    simp only [JsVal.find, hv, JsVal.push, template_of_stringOrAbsent _ hmail]
    split <;> simp [httpStatus]

theorem login_answers (file : FileState) (body : Body) (items : List JsVal)
    (hread : readUsersFromFile file = .arr items)
    (hitems : ∀ x ∈ items, x ≠ .null ∧ x ≠ .undefined)
    (hmail : stringOrAbsent body.email = true) :
    httpStatus (login file body).1 ∈ [200, 400, 401, 409] := by
  unfold login
  dsimp only
  split
  · simp [httpStatus]
  · rw [hread]
    obtain ⟨v, hv⟩ := findIn_total (credentialsMatch body.email body.password) items (by
        intro x hx
        obtain ⟨w, hw⟩ := getField_total x (utf16 "email") (hitems x hx).1 (hitems x hx).2
        obtain ⟨w1, hw1⟩ := getField_total x (utf16 "password") (hitems x hx).1 (hitems x hx).2
        unfold credentialsMatch
        rw [hw, hw1]
        dsimp only
        split
        · exact ⟨_, rfl⟩
        · exact ⟨_, rfl⟩)
    simp only [JsVal.find, hv, template_of_stringOrAbsent _ hmail]
    split <;> simp [httpStatus]

/-! ## The claims -/

/-- C1. When `email` or `password` is absent or empty, the signup handler and the
login handler both reply 400 with 'Email and password are required.', whatever
the file holds, and the file after the request is the file before it: the reply
is produced before the file is read, and nothing is written. -/
theorem missing_field_rejected (env : Env) (file : FileState) (body : Body)
    (h : absentOrEmpty body.email = true ∨ absentOrEmpty body.password = true) :
    signup env file body = (.ok ⟨400, "Email and password are required."⟩, file) ∧
      login file body = (.ok ⟨400, "Email and password are required."⟩, file) := by
  have hfalsy : ∀ v, absentOrEmpty v = true → truthy v = false := by
    intro v hv
    cases v <;> simp_all [absentOrEmpty, truthy]
  exact rejected_of_falsy env file body (h.imp (hfalsy _) (hfalsy _))

/-- C1, instance: a body without `email`, sent while the file cannot be opened. -/
theorem missing_field_rejected_witness :
    signup calmEnv .unreadable ⟨.undefined, .str (utf16 "p1")⟩ =
        (.ok ⟨400, "Email and password are required."⟩, .unreadable) ∧
      login .unreadable ⟨.undefined, .str (utf16 "p1")⟩ =
        (.ok ⟨400, "Email and password are required."⟩, .unreadable) :=
  missing_field_rejected calmEnv .unreadable ⟨.undefined, .str (utf16 "p1")⟩ (Or.inl rfl)

/-- C2 as stated fails: with no file yet and a write that throws, the signup of a
fresh email replies 200 'Signup successful!' and the store afterwards is still
empty, not the previous records followed by the new one. -/
theorem signup_unsaved_counterexample :
    readUsersFromFile .absent = storeOf [] ∧
      (signup failingEnv .absent aliceBody).1 = .ok ⟨200, "Signup successful!"⟩ ∧
      readUsersFromFile (signup failingEnv .absent aliceBody).2 ≠
        storeOf ([] ++ [User.mk (utf16 "a@x.com") (utf16 "p1") failingEnv.now]) := by
  refine ⟨rfl, rfl, ?_⟩
  have h : readUsersFromFile (signup failingEnv .absent aliceBody).2 = .arr [] := rfl
  rw [h]
  simp [storeOf]

/-- C2, amended. For a store that holds no record with the given email and a
non-empty email and password, signup replies 200 'Signup successful!'.  When the
write goes through, the store afterwards is the previous sequence of records,
unchanged and in order, followed by one record with the submitted email and
password as they are and the request time as timestamp, one record longer. -/
theorem signup_fresh (env : Env) (file : FileState) (users : List User) (e p : JsString)
    (hstore : readUsersFromFile file = storeOf users) (hfresh : ∀ u ∈ users, u.email ≠ e)
    (he : e ≠ []) (hp : p ≠ []) :
    (signup env file ⟨.str e, .str p⟩).1 = .ok ⟨200, "Signup successful!"⟩ ∧
      (writable env file = true →
        readUsersFromFile (signup env file ⟨.str e, .str p⟩).2 =
            storeOf (users ++ [User.mk e p env.now]) ∧
          (users ++ [User.mk e p env.now]).length = users.length + 1) := by
  have hany : ¬ users.any (fun u => decide (u.email = e)) = true := by
    rw [any_email_iff]
    rintro ⟨u, hu, hue⟩
    exact hfresh u hu hue
  rw [signup_on_store env file users e p hstore he hp, if_neg hany]
  refine ⟨rfl, ?_⟩
  intro hw
  refine ⟨?_, by simp⟩
  dsimp only
  rw [write_store_of_writable env file _ hw, read_fileOf]

/-- C2 amended, instance: a second user signs up, on a file that holds one
record. -/
theorem signup_fresh_witness :
    readUsersFromFile (fileOf [alice]) = storeOf [alice] ∧
      (signup calmEnv (fileOf [alice]) ⟨.str (utf16 "b@x.com"), .str (utf16 "p2")⟩).1 =
        .ok ⟨200, "Signup successful!"⟩ ∧
      readUsersFromFile
          (signup calmEnv (fileOf [alice]) ⟨.str (utf16 "b@x.com"), .str (utf16 "p2")⟩).2 =
        storeOf ([alice] ++ [User.mk (utf16 "b@x.com") (utf16 "p2") calmEnv.now]) ∧
      ([alice] ++ [User.mk (utf16 "b@x.com") (utf16 "p2") calmEnv.now]).length =
        [alice].length + 1 :=
  have h := signup_fresh calmEnv (fileOf [alice]) [alice] (utf16 "b@x.com") (utf16 "p2")
    (read_fileOf _) (by decide) (by decide) (by decide)
  ⟨read_fileOf _, h.1, (h.2 rfl).1, (h.2 rfl).2⟩

/-- C3 as stated fails: the store holds a record whose email is the empty string,
the request gives that email and a non-empty password, and the reply is 400, not
409 'Email already registered.'. -/
theorem signup_empty_email_counterexample :
    readUsersFromFile (fileOf [User.mk [] (utf16 "p0") (utf16 "2023-12-31T00:00:00.000Z")]) =
        storeOf [User.mk [] (utf16 "p0") (utf16 "2023-12-31T00:00:00.000Z")] ∧
      (signup calmEnv (fileOf [User.mk [] (utf16 "p0") (utf16 "2023-12-31T00:00:00.000Z")])
          ⟨.str [], .str (utf16 "p1")⟩).1 = .ok ⟨400, "Email and password are required."⟩ ∧
      (signup calmEnv (fileOf [User.mk [] (utf16 "p0") (utf16 "2023-12-31T00:00:00.000Z")])
          ⟨.str [], .str (utf16 "p1")⟩).1 ≠ .ok ⟨409, "Email already registered."⟩ := by
  refine ⟨read_fileOf _, rfl, ?_⟩
  have h : (signup calmEnv
      (fileOf [User.mk [] (utf16 "p0") (utf16 "2023-12-31T00:00:00.000Z")])
      ⟨.str [], .str (utf16 "p1")⟩).1 = .ok ⟨400, "Email and password are required."⟩ := rfl
  rw [h]
  simp

/-- C3, amended. For a store that already holds at least one record with the
given email, and every non-empty email and non-empty password (equal to the
stored one or not), signup replies 409 'Email already registered.' and the file
after the request is the file before it. -/
theorem signup_duplicate_rejected (env : Env) (file : FileState) (users : List User)
    (e p : JsString) (hstore : readUsersFromFile file = storeOf users)
    (hheld : ∃ u ∈ users, u.email = e) (he : e ≠ []) (hp : p ≠ []) :
    signup env file ⟨.str e, .str p⟩ = (.ok ⟨409, "Email already registered."⟩, file) := by
  rw [signup_on_store env file users e p hstore he hp, if_pos ((any_email_iff users e).mpr hheld)]

/-- C3 amended, instance: the last signup of the scenario, with another password. -/
theorem signup_duplicate_rejected_witness :
    readUsersFromFile (fileOf [alice]) = storeOf [alice] ∧
      signup calmEnv (fileOf [alice]) ⟨.str (utf16 "a@x.com"), .str (utf16 "p2")⟩ =
        (.ok ⟨409, "Email already registered."⟩, fileOf [alice]) :=
  ⟨read_fileOf _,
    signup_duplicate_rejected calmEnv (fileOf [alice]) [alice] (utf16 "a@x.com") (utf16 "p2")
      (read_fileOf _) ⟨alice, by simp, rfl⟩ (by decide) (by decide)⟩

/-- C4. For every store and every non-empty email and password, login replies 200
'Login successful!' exactly when some record of the store has that very email
and that very password, compared as they are, code unit by code unit; otherwise,
as when every record with the email has another password, it replies 401
'Invalid credentials.'. -/
theorem login_decision (file : FileState) (users : List User) (e p : JsString)
    (hstore : readUsersFromFile file = storeOf users) (he : e ≠ []) (hp : p ≠ []) :
    ((login file ⟨.str e, .str p⟩).1 = .ok ⟨200, "Login successful!"⟩ ↔
        ∃ u ∈ users, u.email = e ∧ u.password = p) ∧
      ((¬ ∃ u ∈ users, u.email = e ∧ u.password = p) →
        (login file ⟨.str e, .str p⟩).1 = .ok ⟨401, "Invalid credentials."⟩) := by
  have hiff : users.any (fun u => decide (u.email = e ∧ u.password = p)) = true ↔
      ∃ u ∈ users, u.email = e ∧ u.password = p := by
    simp [List.any_eq_true]
  rw [login_on_store file users e p hstore he hp]
  by_cases h : users.any (fun u => decide (u.email = e ∧ u.password = p)) = true
  · rw [if_pos h]
    exact ⟨⟨fun _ => hiff.mp h, fun _ => rfl⟩, fun hn => absurd (hiff.mp h) hn⟩
  · rw [if_neg h]
    refine ⟨⟨fun hc => ?_, fun hx => absurd (hiff.mpr hx) h⟩, fun _ => rfl⟩
    simp at hc

/-- C4, instance: against the file that holds the record of the scenario, the
login with its email and password replies 200, the login with its email and a
wrong password replies 401, and so does the login with its password in another
case. -/
theorem login_decision_witness :
    readUsersFromFile (fileOf [alice]) = storeOf [alice] ∧
      (login (fileOf [alice]) ⟨.str (utf16 "a@x.com"), .str (utf16 "p1")⟩).1 =
        .ok ⟨200, "Login successful!"⟩ ∧
      (login (fileOf [alice]) ⟨.str (utf16 "a@x.com"), .str (utf16 "wrong")⟩).1 =
        .ok ⟨401, "Invalid credentials."⟩ ∧
      (login (fileOf [alice]) ⟨.str (utf16 "a@x.com"), .str (utf16 "P1")⟩).1 =
        .ok ⟨401, "Invalid credentials."⟩ :=
  ⟨read_fileOf _,
    (login_decision (fileOf [alice]) [alice] (utf16 "a@x.com") (utf16 "p1") (read_fileOf _)
      (by decide) (by decide)).1.mpr ⟨alice, by simp, rfl, rfl⟩,
    (login_decision (fileOf [alice]) [alice] (utf16 "a@x.com") (utf16 "wrong") (read_fileOf _)
      (by decide) (by decide)).2 (by decide),
    (login_decision (fileOf [alice]) [alice] (utf16 "a@x.com") (utf16 "P1") (read_fileOf _)
      (by decide) (by decide)).2 (by decide)⟩

/-- C5 as stated fails twice.  When the write of the first signup throws, the
first call replies 200 and so does the second, which is not a 409.  When the
second password is the empty string, which differs from the first, the second
call replies 400, not 409. -/
theorem signup_twice_counterexample :
    readUsersFromFile .absent = storeOf [] ∧
      (signup failingEnv .absent aliceBody).1 = .ok ⟨200, "Signup successful!"⟩ ∧
      (signup calmEnv (signup failingEnv .absent aliceBody).2
          ⟨.str (utf16 "a@x.com"), .str (utf16 "p2")⟩).1 =
        .ok ⟨200, "Signup successful!"⟩ ∧
      (signup calmEnv (signup calmEnv .absent aliceBody).2
          ⟨.str (utf16 "a@x.com"), .str []⟩).1 =
        .ok ⟨400, "Email and password are required."⟩ :=
  ⟨rfl, rfl, rfl, rfl⟩

/-- C5, amended. Two signups in succession with the same non-empty email and
non-empty passwords (the second the same as the first or not), from a store with
no record for that email, the write of the first going through: the first call
replies 200, the second 409, and after both the store is the previous records
followed by one record with that email, which carries the first password and is
the only record with that email. -/
theorem signup_twice (env1 env2 : Env) (file : FileState) (users : List User)
    (e p1 p2 : JsString) (hstore : readUsersFromFile file = storeOf users)
    (hfresh : ∀ u ∈ users, u.email ≠ e) (he : e ≠ []) (hp1 : p1 ≠ []) (hp2 : p2 ≠ [])
    (hw : writable env1 file = true) :
    (signup env1 file ⟨.str e, .str p1⟩).1 = .ok ⟨200, "Signup successful!"⟩ ∧
      (signup env2 (signup env1 file ⟨.str e, .str p1⟩).2 ⟨.str e, .str p2⟩).1 =
        .ok ⟨409, "Email already registered."⟩ ∧
      readUsersFromFile
          (signup env2 (signup env1 file ⟨.str e, .str p1⟩).2 ⟨.str e, .str p2⟩).2 =
        storeOf (users ++ [User.mk e p1 env1.now]) ∧
      (users ++ [User.mk e p1 env1.now]).filter (fun u => decide (u.email = e)) =
        [User.mk e p1 env1.now] := by
  have hany : ¬ users.any (fun u => decide (u.email = e)) = true := by
    rw [any_email_iff]
    rintro ⟨u, hu, hue⟩
    exact hfresh u hu hue
  have hfirst : signup env1 file ⟨.str e, .str p1⟩ =
      (.ok ⟨200, "Signup successful!"⟩, fileOf (users ++ [User.mk e p1 env1.now])) := by
    rw [signup_on_store env1 file users e p1 hstore he hp1, if_neg hany,
      write_store_of_writable env1 file _ hw]
  have hsecond : signup env2 (fileOf (users ++ [User.mk e p1 env1.now])) ⟨.str e, .str p2⟩ =
      (.ok ⟨409, "Email already registered."⟩, fileOf (users ++ [User.mk e p1 env1.now])) := by
    rw [signup_on_store env2 _ (users ++ [User.mk e p1 env1.now]) e p2 (read_fileOf _) he hp2,
      if_pos]
    rw [any_email_iff]
    exact ⟨User.mk e p1 env1.now, by simp, rfl⟩
  rw [hfirst]
  dsimp only
  rw [hsecond]
  refine ⟨rfl, rfl, read_fileOf _, ?_⟩
  have hnone : users.filter (fun u => decide (u.email = e)) = [] := by
    rw [List.filter_eq_nil_iff]
    intro u hu
    simpa using hfresh u hu
  simp [List.filter_append, hnone]

/-- C5 amended, instance: the scenario's two signups, `p1` then `p2`. -/
theorem signup_twice_witness :
    (signup calmEnv .absent ⟨.str (utf16 "a@x.com"), .str (utf16 "p1")⟩).1 =
        .ok ⟨200, "Signup successful!"⟩ ∧
      (signup failingEnv (signup calmEnv .absent ⟨.str (utf16 "a@x.com"), .str (utf16 "p1")⟩).2
          ⟨.str (utf16 "a@x.com"), .str (utf16 "p2")⟩).1 =
        .ok ⟨409, "Email already registered."⟩ ∧
      readUsersFromFile
          (signup failingEnv
            (signup calmEnv .absent ⟨.str (utf16 "a@x.com"), .str (utf16 "p1")⟩).2
            ⟨.str (utf16 "a@x.com"), .str (utf16 "p2")⟩).2 =
        storeOf ([] ++ [User.mk (utf16 "a@x.com") (utf16 "p1") calmEnv.now]) ∧
      ([] ++ [User.mk (utf16 "a@x.com") (utf16 "p1") calmEnv.now]).filter
          (fun u => decide (u.email = utf16 "a@x.com")) =
        [User.mk (utf16 "a@x.com") (utf16 "p1") calmEnv.now] :=
  signup_twice calmEnv failingEnv .absent [] (utf16 "a@x.com") (utf16 "p1") (utf16 "p2") rfl
    (by simp) (by decide) (by decide) (by decide) rfl

/-- C6 as stated fails: with no file yet and a write that throws, signup replies
200, and the login with the same email and password against the resulting store
replies 401. -/
theorem login_after_signup_counterexample :
    httpStatus (signup failingEnv .absent aliceBody).1 = 200 ∧
      (login (signup failingEnv .absent aliceBody).2 aliceBody).1 =
        .ok ⟨401, "Invalid credentials."⟩ :=
  ⟨rfl, rfl⟩

/-- C6, amended. For every store and every non-empty email and password, if
signup with them replies 200 and its write goes through, then a login with the
same email and password against the resulting store replies 200 'Login
successful!'. -/
theorem login_after_signup (env : Env) (file : FileState) (users : List User)
    (e p : JsString)
    (hstore : readUsersFromFile file = storeOf users) (he : e ≠ []) (hp : p ≠ [])
    (hok : httpStatus (signup env file ⟨.str e, .str p⟩).1 = 200)
    (hw : writable env file = true) :
    (login (signup env file ⟨.str e, .str p⟩).2 ⟨.str e, .str p⟩).1 =
      .ok ⟨200, "Login successful!"⟩ := by
  rw [signup_on_store env file users e p hstore he hp] at hok ⊢
  by_cases hany : users.any (fun u => decide (u.email = e)) = true
  · rw [if_pos hany] at hok
    simp [httpStatus] at hok
  · rw [if_neg hany]
    dsimp only
    rw [write_store_of_writable env file _ hw,
      login_on_store _ (users ++ [User.mk e p env.now]) e p (read_fileOf _) he hp, if_pos]
    simp [List.any_eq_true]

/-- C6 amended, instance: the scenario's signup followed by its first login. -/
theorem login_after_signup_witness :
    (login (signup calmEnv .absent ⟨.str (utf16 "a@x.com"), .str (utf16 "p1")⟩).2
        ⟨.str (utf16 "a@x.com"), .str (utf16 "p1")⟩).1 = .ok ⟨200, "Login successful!"⟩ :=
  login_after_signup calmEnv .absent [] (utf16 "a@x.com") (utf16 "p1") rfl (by decide)
    (by decide) rfl rfl

/-- C7 as stated fails: with no file, a login that submits the empty string as
email replies 400, not 401. -/
theorem login_absent_counterexample :
    (login .absent ⟨.str [], .str (utf16 "p1")⟩).1 =
        .ok ⟨400, "Email and password are required."⟩ ∧
      httpStatus (login .absent ⟨.str [], .str (utf16 "p1")⟩).1 ≠ 401 :=
  ⟨rfl, by decide⟩

/-- C7, amended. When the file does not exist, login replies 401 'Invalid
credentials.' for every email and password that are non-empty strings, and 400
'Email and password are required.' when the email or the password is absent or
empty; the file stays absent. -/
theorem login_absent_file :
    (∀ e p : JsString, e ≠ [] → p ≠ [] →
        login .absent ⟨.str e, .str p⟩ = (.ok ⟨401, "Invalid credentials."⟩, .absent)) ∧
      (∀ body : Body, absentOrEmpty body.email = true ∨ absentOrEmpty body.password = true →
        login .absent body = (.ok ⟨400, "Email and password are required."⟩, .absent)) := by
  constructor
  · intro e p he hp
    rw [login_on_store .absent [] e p rfl he hp]
    rfl
  · intro body h
    have hfalsy : ∀ v, absentOrEmpty v = true → truthy v = false := by
      intro v hv
      cases v <;> simp_all [absentOrEmpty, truthy]
    exact (rejected_of_falsy calmEnv .absent body (h.imp (hfalsy _) (hfalsy _))).2

/-- C7 amended, instance: while the file is missing, the scenario's credentials
get 401 and a login without password gets 400. -/
theorem login_absent_file_witness :
    login .absent ⟨.str (utf16 "a@x.com"), .str (utf16 "p1")⟩ =
        (.ok ⟨401, "Invalid credentials."⟩, .absent) ∧
      login .absent ⟨.str (utf16 "a@x.com"), .undefined⟩ =
        (.ok ⟨400, "Email and password are required."⟩, .absent) :=
  ⟨login_absent_file.1 (utf16 "a@x.com") (utf16 "p1") (by decide) (by decide),
    login_absent_file.2 ⟨.str (utf16 "a@x.com"), .undefined⟩ (Or.inr rfl)⟩

/-- C8 as stated fails: when the write throws, saving one record to a missing
file and loading it again yields the empty sequence, not the record. -/
theorem save_load_counterexample :
    readUsersFromFile (writeUsersToFile failingEnv .absent (storeOf [alice])) = storeOf [] ∧
      readUsersFromFile (writeUsersToFile failingEnv .absent (storeOf [alice])) ≠
        storeOf [alice] := by
  have h : readUsersFromFile (writeUsersToFile failingEnv .absent (storeOf [alice])) =
      storeOf [] := rfl
  refine ⟨h, ?_⟩
  rw [h]
  simp [storeOf]

/-- C8, amended. For every sequence of records with string fields, serialising
and then parsing is the identity: `JSON.stringify` yields a text that
`JSON.parse` reads back as the same array.  Saving the sequence with
`writeUsersToFile` and loading it with `readUsersFromFile` yields it again
whenever the write goes through.  Equal arrays are equal sequences of records:
the same number, the same order, the same field values. -/
theorem store_round_trip (users : List User) :
    (∃ text, JSON.stringify (storeOf users) = some text ∧
        JSON.parse text = some (storeOf users)) ∧
      (∀ env file, writable env file = true →
        readUsersFromFile (writeUsersToFile env file (storeOf users)) = storeOf users) ∧
      (∀ users1, storeOf users1 = storeOf users → users1 = users) := by
  refine ⟨⟨_, stringify_store users, parse_store_text users⟩, ?_, ?_⟩
  · intro env file hw
    rw [write_store_of_writable env file users hw, read_fileOf]
  · intro users1 h
    exact storeOf_injective users1 users h

/-- C8 amended, instance: one record saved over a missing file. -/
theorem store_round_trip_witness :
    readUsersFromFile (writeUsersToFile calmEnv .absent (storeOf [alice])) = storeOf [alice] :=
  (store_round_trip [alice]).2.1 calmEnv .absent rfl

/-- C9 as stated fails: the file holds `{}`, valid JSON that is not a sequence
of records.  `readUsersFromFile` returns the parsed object, not the empty
sequence, the scan of either handler raises a TypeError, and the client gets
500, none of 200, 400, 401, 409. -/
theorem corrupt_store_counterexample :
    readUsersFromFile (.content ['{', '}']) = .obj [] ∧
      readUsersFromFile (.content ['{', '}']) ≠ .arr [] ∧
      (signup calmEnv (.content ['{', '}']) aliceBody).1 = .error .typeError ∧
      (login (.content ['{', '}']) aliceBody).1 = .error .typeError ∧
      httpStatus (signup calmEnv (.content ['{', '}']) aliceBody).1 = 500 ∧
      httpStatus (signup calmEnv (.content ['{', '}']) aliceBody).1 ∉ [200, 400, 401, 409] := by
  have h : readUsersFromFile (.content ['{', '}']) = .obj [] := rfl
  have hs : httpStatus (signup calmEnv (.content ['{', '}']) aliceBody).1 = 500 := rfl
  refine ⟨h, ?_, rfl, rfl, hs, ?_⟩
  · rw [h]
    simp
  · rw [hs]
    decide

/-- C9, amended. `readUsersFromFile` never throws.  When the file is absent,
cannot be read, or holds a text that is not valid JSON, it returns the empty
sequence; when the file holds valid JSON, it returns the parsed value as it is,
whatever its shape.  Whenever the value it returns is an array without a `null`
element, as the empty sequence is, the handler that called it answers a request
whose email and password are each absent or a string with one of 200, 400, 401,
409. -/
theorem load_fallback (file : FileState) :
    ((file = .absent ∨ file = .unreadable ∨
          ∃ text, file = .content text ∧ JSON.parse text = none) →
        readUsersFromFile file = .arr []) ∧
      (∀ text v, file = .content text → JSON.parse text = some v →
        readUsersFromFile file = v) ∧
      (∀ items, readUsersFromFile file = .arr items →
        (∀ x ∈ items, x ≠ .null ∧ x ≠ .undefined) →
        ∀ env body, stringOrAbsent body.email = true → stringOrAbsent body.password = true →
          httpStatus (signup env file body).1 ∈ [200, 400, 401, 409] ∧
            httpStatus (login file body).1 ∈ [200, 400, 401, 409]) := by
  refine ⟨?_, ?_, ?_⟩
  · rintro (h | h | ⟨text, h, hparse⟩)
    · rw [h]; rfl
    · rw [h]; rfl
    · rw [h]
      simp [readUsersFromFile, readFileSync, hparse]
  · intro text v h hparse
    rw [h]
    simp [readUsersFromFile, readFileSync, hparse]
  · intro items hread hitems env body hmail _
    exact ⟨signup_answers env file body items hread hitems hmail,
      login_answers file body items hread hitems hmail⟩

/-- C9 amended, instance: a file that holds the text `users`, which is not JSON. -/
theorem load_fallback_witness :
    readUsersFromFile (.content ['u', 's', 'e', 'r', 's']) = .arr [] ∧
      httpStatus (signup calmEnv (.content ['u', 's', 'e', 'r', 's']) aliceBody).1 ∈
        [200, 400, 401, 409] :=
  have hread : readUsersFromFile (.content ['u', 's', 'e', 'r', 's']) = .arr [] :=
    (load_fallback (.content ['u', 's', 'e', 'r', 's'])).1 (Or.inr (Or.inr ⟨_, rfl, rfl⟩))
  ⟨hread, ((load_fallback (.content ['u', 's', 'e', 'r', 's'])).2.2 [] hread (by simp)
    calmEnv aliceBody rfl rfl).1⟩

set_option maxRecDepth 100000 in
/-- C10 as stated fails: a form that repeats the key `email` gives an array as
email; no array is `===` to the array read from the file, so from the empty
store two such signups are both accepted, and the store then holds two records
with the same email. -/
theorem array_email_counterexample :
    distinctEmails (readUsersFromFile .absent) ∧
      (signup calmEnv .absent arrayBody).1 = .ok ⟨200, "Signup successful!"⟩ ∧
      (signup calmEnv (signup calmEnv .absent arrayBody).2 arrayBody).1 =
        .ok ⟨200, "Signup successful!"⟩ ∧
      ¬ distinctEmails (readUsersFromFile
        (run .absent [(calmEnv, .signup arrayBody), (calmEnv, .signup arrayBody)])) := by
  have h : readUsersFromFile
      (run .absent [(calmEnv, .signup arrayBody), (calmEnv, .signup arrayBody)]) =
      .arr [.obj [(utf16 "email", .arr [.str (utf16 "a@x.com"), .str (utf16 "a@x.com")]),
          (utf16 "password", .str (utf16 "p1")),
          (utf16 "timestamp", .str (utf16 "2024-01-01T00:00:00.000Z"))],
        .obj [(utf16 "email", .arr [.str (utf16 "a@x.com"), .str (utf16 "a@x.com")]),
          (utf16 "password", .str (utf16 "p1")),
          (utf16 "timestamp", .str (utf16 "2024-01-01T00:00:00.000Z"))]] := rfl
  refine ⟨?_, rfl, rfl, ?_⟩
  · have h0 : readUsersFromFile .absent = .arr [] := rfl
    rw [h0]
    simp [distinctEmails, emailsOf]
  · rw [h]
    simp [distinctEmails, emailsOf, emailOf, lookup]

/-- C10, amended. With the requests handled one at a time, and for request
bodies whose `email` and `password` are each absent or a string: if no two
records of the store share an email before a signup or login request, then none
do after it; hence every store reached from the empty store by any sequence of
such signup and login requests has pairwise distinct emails. -/
theorem emails_stay_distinct :
    (∀ (env : Env) (file : FileState) (users : List User) (req : Request),
        stringOrAbsent req.body.email = true → stringOrAbsent req.body.password = true →
        readUsersFromFile file = storeOf users →
        distinctEmails (readUsersFromFile file) →
        distinctEmails (readUsersFromFile (handle env file req).2)) ∧
      (∀ reqs : List (Env × Request),
        (∀ r ∈ reqs,
          stringOrAbsent r.2.body.email = true ∧ stringOrAbsent r.2.body.password = true) →
        distinctEmails (readUsersFromFile (run .absent reqs))) := by
  constructor
  · intro env file users req hmail hpass hstore hd
    rw [hstore, distinctEmails_store] at hd
    obtain ⟨users1, h1, h2⟩ := step_keeps_store env file users req hmail hpass hstore hd
    rw [h1, distinctEmails_store]
    exact h2
  · intro reqs hreqs
    obtain ⟨users1, h1, h2⟩ := run_keeps_store reqs hreqs .absent [] rfl (by simp)
    rw [h1, distinctEmails_store]
    exact h2

/-- C10 amended, instance: the four requests of the scenario from the empty store. -/
theorem emails_stay_distinct_witness :
    distinctEmails (readUsersFromFile (run .absent
      [(calmEnv, .signup aliceBody), (calmEnv, .login aliceBody),
        (calmEnv, .login ⟨.str (utf16 "a@x.com"), .str (utf16 "wrong")⟩),
        (calmEnv, .signup ⟨.str (utf16 "a@x.com"), .str (utf16 "p2")⟩)])) :=
  emails_stay_distinct.2 _ (by
    intro r hr
    simp only [List.mem_cons, List.mem_singleton, List.not_mem_nil, or_false] at hr
    rcases hr with rfl | rfl | rfl | rfl <;> exact ⟨rfl, rfl⟩)

end Server
